import Mathlib

/-!
Shallow embedding of `src/src/lib/eilmer/nelmin.py` (Nelder-Mead simplex
minimizer with adaptive restart), together with theorems settling the
frozen claims about it.

Modelling conventions:
* Python floats are modelled as exact rationals `ℚ`; `numpy` arrays of
  length `N` are modelled as `List ℚ`, with elementwise arithmetic
  (`vadd`, `vlincomb`, ...) standing for the numpy vector operations.
* The objective function `f` is a pure parameter `List ℚ → ℚ`.
* Every operation that calls `f` is given in a traced form (suffix `T`)
  which additionally returns the list of points at which `f` was
  evaluated during the call, in evaluation order.  The untraced form is
  the first projection.  The counter `nfe` is incremented exactly where
  the Python code increments it.
* `math.sqrt` is not embedded directly; `f_statistics` returns the
  radicand `s / N` (the square of the Python `std_dev`), and the
  convergence test `std_dev < tol` of `minimize` is embedded as the
  decidable test `stddev_lt`, proved equivalent to
  `Real.sqrt v < tol` for nonnegative `v` in `stddev_lt_iff_sqrt_lt`.
* Fallible behaviour is explicit: `initT` returns `none` where the
  Python constructor would raise (an out-of-range access `dx[i-1]`),
  and `minimize` returns a `PyResult` that distinguishes a normal
  return from the `UnboundLocalError` on `x_best` and the constructor
  failure.  The outer `while` loop is run on fuel `maxfe + 1`; a fuel
  result of `none` marks a run the bounded model could not finish.
-/

namespace Nelmin

/-- Elementwise sum of two equal-length numpy arrays. -/
def vadd (u v : List ℚ) : List ℚ := List.zipWith (fun a b => a + b) u v

/-- The numpy expression `a*u + b*v` on equal-length arrays. -/
def vlincomb (a : ℚ) (u : List ℚ) (b : ℚ) (v : List ℚ) : List ℚ :=
  List.zipWith (fun p q => a * p + b * q) u v

/-- State of the Python class `NMSimplex`: dimension, vertex list,
cached objective values, step vector, evaluation and restart counters. -/
structure NMSimplex where
  N : ℕ
  vertex_list : List (List ℚ)
  f_list : List ℚ
  dx : List ℚ
  nfe : ℕ
  nrestarts : ℕ
deriving DecidableEq

/-- Traced `NMSimplex.__init__`: vertex 0 is the seed, vertex `i ≥ 1`
perturbs axis `i-1` by `dx[i-1]`; `f` is evaluated once per vertex.
Returns `none` where Python raises `IndexError` on `dx[i-1]`, i.e.
exactly when `dx` is shorter than the seed. -/
def initT (x dx : List ℚ) (f : List ℚ → ℚ) :
    Option (NMSimplex × List (List ℚ)) :=
  if dx.length < x.length then none else
  let N := x.length
  let verts := (List.range (N + 1)).map (fun i =>
    if i = 0 then x
    else x.set (i - 1) (x.getD (i - 1) 0 + dx.getD (i - 1) 0))
  some (⟨N, verts, verts.map f, dx, N + 1, 0⟩, verts)

/-- Untraced constructor. -/
def init (x dx : List ℚ) (f : List ℚ → ℚ) : Option NMSimplex :=
  (initT x dx f).map Prod.fst

/-- The scanning loop shared by `lowest` and `highest`: `better` is the
strict comparison used to displace the incumbent. -/
def scanIdxAux (fl : List ℚ) (exclude : ℤ) (better : ℚ → ℚ → Prop)
    [DecidableRel better] : List ℕ → ℚ → ℕ → ℕ
  | [], _, bi => bi
  | i :: rest, bv, bi =>
    if (i : ℤ) = exclude then scanIdxAux fl exclude better rest bv bi
    else if better (fl.getD i 0) bv then
      scanIdxAux fl exclude better rest (fl.getD i 0) i
    else scanIdxAux fl exclude better rest bv bi

/-- `NMSimplex.lowest`: index of the smallest cached value, first index
wins ties; `exclude` skips one index (Python default `-1` skips none). -/
def lowestIdx (fl : List ℚ) (N : ℕ) (exclude : ℤ) : ℕ :=
  let indx : ℕ := if exclude = 0 then 1 else 0
  scanIdxAux fl exclude (fun a b => a < b) (List.range (N + 1)) (fl.getD indx 0) indx

/-- `NMSimplex.highest`: index of the largest cached value. -/
def highestIdx (fl : List ℚ) (N : ℕ) (exclude : ℤ) : ℕ :=
  let indx : ℕ := if exclude = 0 then 1 else 0
  scanIdxAux fl exclude (fun a b => b < a) (List.range (N + 1)) (fl.getD indx 0) indx

def NMSimplex.lowest (s : NMSimplex) (exclude : ℤ) : ℕ :=
  lowestIdx s.f_list s.N exclude

def NMSimplex.highest (s : NMSimplex) (exclude : ℤ) : ℕ :=
  highestIdx s.f_list s.N exclude

/-- `NMSimplex.get_vertex` (the Python `.copy()` is value semantics here). -/
def NMSimplex.get_vertex (s : NMSimplex) (i : ℕ) : List ℚ :=
  s.vertex_list.getD i []

/-- `NMSimplex.replace_vertex`. -/
def NMSimplex.replace_vertex (s : NMSimplex) (i : ℕ) (x : List ℚ) (fvalue : ℚ) :
    NMSimplex :=
  { s with vertex_list := s.vertex_list.set i x, f_list := s.f_list.set i fvalue }

/-- Core of `NMSimplex.f_statistics` on the raw value list.  The first
component is the mean `sum / (N+1)`; the second is `s / N`, the square
of the Python `std_dev = math.sqrt(s/N)`. -/
def fStats (fl : List ℚ) (N : ℕ) : ℚ × ℚ :=
  let mean := fl.sum / ((N : ℚ) + 1)
  let s := (List.range (N + 1)).foldl
    (fun acc i => acc + (fl.getD i 0 - mean) * (fl.getD i 0 - mean)) 0
  (mean, s / (N : ℚ))

def NMSimplex.f_statistics (s : NMSimplex) : ℚ × ℚ := fStats s.f_list s.N

/-- `NMSimplex.centroid`: mean of all vertices except `exclude`,
divided by `N`. -/
def NMSimplex.centroid (s : NMSimplex) (exclude : ℤ) : List ℚ :=
  ((List.range (s.N + 1)).foldl
    (fun acc (i : ℕ) => if (i : ℤ) = exclude then acc
      else vadd acc (s.vertex_list.getD i []))
    (List.replicate s.N 0)).map (fun a => a / (s.N : ℚ))

/-- Loop body of `NMSimplex.contract_about_one_point`: each vertex other
than `i_con` is replaced by its midpoint with `p_con`, re-evaluating `f`. -/
def contractAuxT (f : List ℚ → ℚ) (i_con : ℕ) (p_con : List ℚ) :
    List ℕ → NMSimplex → NMSimplex × List (List ℚ)
  | [], s => (s, [])
  | i :: rest, s =>
    if i = i_con then contractAuxT f i_con p_con rest s
    else
      let p := vlincomb (1/2) (s.vertex_list.getD i []) (1/2) p_con
      let r := contractAuxT f i_con p_con rest
        { s with f_list := s.f_list.set i (f p), nfe := s.nfe + 1,
                 vertex_list := s.vertex_list.set i p }
      (r.1, p :: r.2)

/-- Traced `NMSimplex.contract_about_one_point`. -/
def NMSimplex.contract_about_one_pointT (s : NMSimplex) (f : List ℚ → ℚ)
    (i_con : ℕ) : NMSimplex × List (List ℚ) :=
  contractAuxT f i_con (s.vertex_list.getD i_con []) (List.range (s.N + 1)) s

def NMSimplex.contract_about_one_point (s : NMSimplex) (f : List ℚ → ℚ)
    (i_con : ℕ) : NMSimplex :=
  (s.contract_about_one_pointT f i_con).1

/-- Loop body of `NMSimplex.test_for_minimum`: perturb axis `j` of the
best vertex by `+dx[j]*delta`, then decrement that probe by
`2*dx[j]*delta`; break out returning `False` on the first probe whose
value drops below `f_min`. -/
def tfmAuxT (f : List ℚ → ℚ) (i_min : ℕ) (delta f_min : ℚ) :
    List ℕ → NMSimplex → Bool × NMSimplex × List (List ℚ)
  | [], s => (true, s, [])
  | j :: rest, s =>
    let p := (s.get_vertex i_min).set j
      ((s.get_vertex i_min).getD j 0 + s.dx.getD j 0 * delta)
    let s1 := { s with nfe := s.nfe + 1 }
    if f p < f_min then (false, s1, [p])
    else
      let p2 := p.set j (p.getD j 0 - s.dx.getD j 0 * delta * 2)
      let s2 := { s1 with nfe := s1.nfe + 1 }
      if f p2 < f_min then (false, s2, [p, p2])
      else
        let r := tfmAuxT f i_min delta f_min rest s2
        (r.1, r.2.1, p :: p2 :: r.2.2)

/-- Traced `NMSimplex.test_for_minimum`. -/
def NMSimplex.test_for_minimumT (s : NMSimplex) (f : List ℚ → ℚ)
    (i_min : ℕ) (delta : ℚ) : Bool × NMSimplex × List (List ℚ) :=
  tfmAuxT f i_min delta (s.f_list.getD i_min 0) (List.range s.N) s

def NMSimplex.test_for_minimum (s : NMSimplex) (f : List ℚ → ℚ)
    (i_min : ℕ) (delta : ℚ) : Bool × NMSimplex :=
  let r := s.test_for_minimumT f i_min delta
  (r.1, r.2.1)

/-- The first probe point of `test_for_minimum` on axis `j`: the best
vertex with coordinate `j` incremented by `dx[j]*delta`. -/
def probe1 (s : NMSimplex) (i_min j : ℕ) (delta : ℚ) : List ℚ :=
  (s.get_vertex i_min).set j
    ((s.get_vertex i_min).getD j 0 + s.dx.getD j 0 * delta)

/-- The second probe point of `test_for_minimum` on axis `j`: the first
probe point with coordinate `j` decremented by `2*dx[j]*delta`. -/
def probe2 (s : NMSimplex) (i_min j : ℕ) (delta : ℚ) : List ℚ :=
  (probe1 s i_min j delta).set j
    ((probe1 s i_min j delta).getD j 0 - s.dx.getD j 0 * delta * 2)

/-- Traced `NMSimplex.take_a_step`: reflect the worst vertex through the
centroid of the rest, then extend, contract, or shrink as the Python
code does. -/
def NMSimplex.take_a_stepT (s : NMSimplex) (f : List ℚ → ℚ)
    (Kreflect Kextend Kcontract : ℚ) : NMSimplex × List (List ℚ) :=
  let i_low := s.lowest (-1)
  let i_high := s.highest (-1)
  let x_high := s.vertex_list.getD i_high []
  let f_high := s.f_list.getD i_high 0
  let x_mid := s.centroid (i_high : ℤ)
  let f_mid := f x_mid
  let s1 := { s with nfe := s.nfe + 1 }
  let x_refl := vlincomb (1 + Kreflect) x_mid (-Kreflect) x_high
  let f_refl := f x_refl
  let s2 := { s1 with nfe := s1.nfe + 1 }
  if f_refl < f_mid then
    let x_ext := vlincomb Kextend x_refl (1 - Kextend) x_mid
    let f_ext := f x_ext
    let s3 := { s2 with nfe := s2.nfe + 1 }
    if f_ext < f_refl then
      (s3.replace_vertex i_high x_ext f_ext, [x_mid, x_refl, x_ext])
    else
      (s3.replace_vertex i_high x_refl f_refl, [x_mid, x_refl, x_ext])
  else
    let count := (List.range (s.N + 1)).countP
      (fun i => decide (f_refl < s.f_list.getD i 0))
    if count ≤ 1 then
      let x_con := vlincomb (1 - Kcontract) x_mid Kcontract x_high
      let f_con := f x_con
      let s3 := { s2 with nfe := s2.nfe + 1 }
      if f_con < f_high then
        (s3.replace_vertex i_high x_con f_con, [x_mid, x_refl, x_con])
      else
        let r := s3.contract_about_one_pointT f i_low
        (r.1, [x_mid, x_refl, x_con] ++ r.2)
    else
      (s2.replace_vertex i_high x_refl f_refl, [x_mid, x_refl])

def NMSimplex.take_a_step (s : NMSimplex) (f : List ℚ → ℚ)
    (Kreflect Kextend Kcontract : ℚ) : NMSimplex :=
  (s.take_a_stepT f Kreflect Kextend Kcontract).1

/-- Traced `NMSimplex.rescale`: shrink `dx` multiplicatively, rebuild
the simplex about the current best vertex, reusing its cached value for
slot 0 and evaluating `f` for the other `N` slots. -/
def NMSimplex.rescaleT (s : NMSimplex) (f : List ℚ → ℚ) (rat : ℚ) :
    NMSimplex × List (List ℚ) :=
  let i_min := s.lowest (-1)
  let dxNew := s.dx.map (fun a => a * rat)
  let x := s.vertex_list.getD i_min []
  let f_min := s.f_list.getD i_min 0
  let verts := (List.range (s.N + 1)).map (fun i =>
    if i = 0 then x
    else x.set (i - 1) (x.getD (i - 1) 0 + dxNew.getD (i - 1) 0))
  let news := verts.drop 1
  ({ s with dx := dxNew, vertex_list := verts,
            f_list := f_min :: news.map f,
            nfe := s.nfe + s.N, nrestarts := s.nrestarts + 1 }, news)

def NMSimplex.rescale (s : NMSimplex) (f : List ℚ → ℚ) (rat : ℚ) : NMSimplex :=
  (s.rescaleT f rat).1

/-- Decidable embedding of the Python test `stddev < tol`, where the
Python `stddev` is `math.sqrt v` for the radicand `v` returned by our
`fStats`.  `stddev_lt_iff_sqrt_lt` below proves it faithful. -/
def stddev_lt (v tol : ℚ) : Bool :=
  decide (0 < tol) && decide (v < tol * tol)

/-- Result of a run of `minimize`: a normal 5-tuple return, the
`UnboundLocalError` on `x_best` when the while loop never executes, or
the constructor failure on mismatched `dx`. -/
inductive PyResult where
  | ok : List ℚ → ℚ → Bool → ℕ → ℕ → PyResult
  | unboundLocal : PyResult
  | indexError : PyResult
deriving DecidableEq

/-- The inner `for i in range(n_check): smplx.take_a_step(...)` loop. -/
def stepsT (f : List ℚ → ℚ) (Kreflect Kextend Kcontract : ℚ) :
    ℕ → NMSimplex → NMSimplex × List (List ℚ)
  | 0, s => (s, [])
  | n + 1, s =>
    let r1 := s.take_a_stepT f Kreflect Kextend Kcontract
    let r2 := stepsT f Kreflect Kextend Kcontract n r1.1
    (r2.1, r1.2 ++ r2.2)

/-- The `while (not converged) and (smplx.nfe < maxfe)` loop of
`minimize`, run on explicit fuel.  Carries the Python locals `x_best`
and `f_best` as an `Option` (they are unassigned until the loop body
has run once) and accumulates the evaluation trace. -/
def minimizeLoopT (f : List ℚ → ℚ) (tol : ℚ) (maxfe n_check : ℕ)
    (delta Kreflect Kextend Kcontract : ℚ) :
    ℕ → NMSimplex → Option (List ℚ × ℚ) → Bool → List (List ℚ) →
    Option (Option (List ℚ × ℚ) × Bool × NMSimplex × List (List ℚ))
  | 0, _, _, _, _ => none
  | fuel + 1, s, best, converged, acc =>
    if converged = false ∧ s.nfe < maxfe then
      let r1 := stepsT f Kreflect Kextend Kcontract n_check s
      let s1 := r1.1
      let i_best := s1.lowest (-1)
      let x_best := s1.get_vertex i_best
      let f_best := s1.f_list.getD i_best 0
      let st := s1.f_statistics
      if stddev_lt st.2 tol then
        let r2 := s1.test_for_minimumT f i_best delta
        if r2.1 then
          minimizeLoopT f tol maxfe n_check delta Kreflect Kextend Kcontract
            fuel r2.2.1 (some (x_best, f_best)) true (acc ++ r1.2 ++ r2.2.2)
        else
          let r3 := r2.2.1.rescaleT f delta
          minimizeLoopT f tol maxfe n_check delta Kreflect Kextend Kcontract
            fuel r3.1 (some (x_best, f_best)) false (acc ++ r1.2 ++ r2.2.2 ++ r3.2)
      else
        minimizeLoopT f tol maxfe n_check delta Kreflect Kextend Kcontract
          fuel s1 (some (x_best, f_best)) false (acc ++ r1.2)
    else some (best, converged, s, acc)

/-- Traced `minimize`.  `dxOpt = none` models the Python default
`dx = [0.1]*N`.  Fuel `maxfe + 1` bounds the while loop; `none` marks a
run the fuel could not finish (possible only when `n_check = 0`, where
the Python loop itself makes no progress). -/
def minimizeT (f : List ℚ → ℚ) (x : List ℚ) (dxOpt : Option (List ℚ))
    (tol : ℚ) (maxfe n_check : ℕ) (delta Kreflect Kextend Kcontract : ℚ) :
    Option (PyResult × List (List ℚ)) :=
  let dx := dxOpt.getD (List.replicate x.length (1/10))
  match initT x dx f with
  | none => some (PyResult.indexError, [])
  | some (s, tr0) =>
    match minimizeLoopT f tol maxfe n_check delta Kreflect Kextend Kcontract
        (maxfe + 1) s none false tr0 with
    | none => none
    | some (best, conv, sFin, tr) =>
      match best with
      | none => some (PyResult.unboundLocal, tr)
      | some bf => some (PyResult.ok bf.1 bf.2 conv sFin.nfe sFin.nrestarts, tr)

def minimize (f : List ℚ → ℚ) (x : List ℚ) (dxOpt : Option (List ℚ))
    (tol : ℚ) (maxfe n_check : ℕ) (delta Kreflect Kextend Kcontract : ℚ) :
    Option PyResult :=
  (minimizeT f x dxOpt tol maxfe n_check delta Kreflect Kextend Kcontract).map
    Prod.fst

/-- Concrete 2-dimensional simplex used to separate the two possible
readings of the reflection-failure branch of `take_a_step`: cached
values 0, 1, 10, worst slot 2. -/
def cexS : NMSimplex := ⟨2, [[0, 0], [1, 0], [0, 1]], [0, 1, 10], [1, 1], 3, 0⟩

/-- Constant objective used with `cexS`; every trial point, including
the centroid and the reflection, evaluates to 5. -/
def cexF : List ℚ → ℚ := fun _ => 5

/-!
Store-level (aliasing-aware) model, used for the frame claim that
`minimize` never mutates the caller-owned `seed`/`dx` arrays.  Arrays
live in a heap (a list of array values indexed by allocation order);
Python variables hold array ids.  `.copy()` and every numpy arithmetic
expression allocate a fresh array; the single in-place mutation of a
long-lived array in the source, `self.dx *= ratio` in `rescale`, is a
`hwrite` at the simplex's own `dxid` (allocated by the constructor's
`dx.copy()`).  Cached objective values are floats, kept by value.
-/

/-- The heap of array values; an array id is its index. -/
abbrev Heap := List (List ℚ)

/-- Read the array with id `i` (ids are always in range in a run). -/
def hread (h : Heap) (i : ℕ) : List ℚ := h.getD i []

/-- Allocate a fresh array holding `v`, returning its id. -/
def halloc (h : Heap) (v : List ℚ) : ℕ × Heap := (h.length, h ++ [v])

/-- In-place overwrite of the array with id `i`. -/
def hwrite (h : Heap) (i : ℕ) (v : List ℚ) : Heap := h.set i v

/-- Allocate a list of fresh arrays, returning their ids in order. -/
def hallocList : List (List ℚ) → Heap → Heap × List ℕ
  | [], h => (h, [])
  | v :: rest, h =>
    let a := halloc h v
    let r := hallocList rest a.2
    (r.1, a.1 :: r.2)

/-- Store-level `NMSimplex` state: vertex slots and `dx` hold array
ids; cached values and counters are plain values. -/
structure HSimplex where
  N : ℕ
  vids : List ℕ
  fl : List ℚ
  dxid : ℕ
  nfe : ℕ
  nrestarts : ℕ
deriving DecidableEq

/-- Store-level `NMSimplex.__init__`: copies the caller's `dx` into a
fresh array and builds each vertex from a fresh copy of the caller's
seed. -/
def hInit (f : List ℚ → ℚ) (h : Heap) (xid dxid : ℕ) :
    Option (HSimplex × Heap) :=
  let x := hread h xid
  let dxv := hread h dxid
  if dxv.length < x.length then none else
  let N := x.length
  let a := halloc h dxv
  let verts := (List.range (N + 1)).map (fun i =>
    if i = 0 then x
    else x.set (i - 1) (x.getD (i - 1) 0 + dxv.getD (i - 1) 0))
  let r := hallocList verts a.2
  some (⟨N, r.2, verts.map f, a.1, N + 1, 0⟩, r.1)

/-- Store-level `get_vertex` (the `.copy()` returns the value). -/
def HSimplex.hget_vertex (s : HSimplex) (h : Heap) (i : ℕ) : List ℚ :=
  hread h (s.vids.getD i 0)

/-- Store-level `replace_vertex`: `x.copy()` allocates, the slot is
rebound to the fresh id. -/
def HSimplex.hreplace_vertex (s : HSimplex) (h : Heap) (i : ℕ)
    (x : List ℚ) (fvalue : ℚ) : HSimplex × Heap :=
  let a := halloc h x
  ({ s with vids := s.vids.set i a.1, fl := s.fl.set i fvalue }, a.2)

/-- Store-level `centroid`: numpy builds a fresh accumulator, which is
never stored, so it stays a value here. -/
def HSimplex.hcentroid (s : HSimplex) (h : Heap) (exclude : ℤ) : List ℚ :=
  ((List.range (s.N + 1)).foldl
    (fun acc (i : ℕ) => if (i : ℤ) = exclude then acc
      else vadd acc (hread h (s.vids.getD i 0)))
    (List.replicate s.N 0)).map (fun a => a / (s.N : ℚ))

/-- Store-level contraction loop: each new midpoint array is allocated
fresh and the slot rebound to it. -/
def hContractAux (f : List ℚ → ℚ) (i_con : ℕ) (p_con : List ℚ) :
    List ℕ → HSimplex → Heap → HSimplex × Heap
  | [], s, h => (s, h)
  | i :: rest, s, h =>
    if i = i_con then hContractAux f i_con p_con rest s h
    else
      let p := vlincomb (1/2) (hread h (s.vids.getD i 0)) (1/2) p_con
      let a := halloc h p
      hContractAux f i_con p_con rest
        { s with fl := s.fl.set i (f p), nfe := s.nfe + 1,
                 vids := s.vids.set i a.1 } a.2

/-- Store-level `contract_about_one_point`. -/
def HSimplex.hcontract_about_one_point (s : HSimplex) (f : List ℚ → ℚ)
    (h : Heap) (i_con : ℕ) : HSimplex × Heap :=
  hContractAux f i_con (hread h (s.vids.getD i_con 0)) (List.range (s.N + 1)) s h

/-- Store-level `test_for_minimum` loop: probes mutate a fresh copy of
the best vertex, never a stored array, so the heap is not touched. -/
def hTfmAux (f : List ℚ → ℚ) (v_min dxv : List ℚ) (delta f_min : ℚ) :
    List ℕ → HSimplex → Bool × HSimplex
  | [], s => (true, s)
  | j :: rest, s =>
    let p := v_min.set j (v_min.getD j 0 + dxv.getD j 0 * delta)
    let s1 := { s with nfe := s.nfe + 1 }
    if f p < f_min then (false, s1)
    else
      let p2 := p.set j (p.getD j 0 - dxv.getD j 0 * delta * 2)
      let s2 := { s1 with nfe := s1.nfe + 1 }
      if f p2 < f_min then (false, s2)
      else hTfmAux f v_min dxv delta f_min rest s2

/-- Store-level `test_for_minimum`. -/
def HSimplex.htest_for_minimum (s : HSimplex) (f : List ℚ → ℚ) (h : Heap)
    (i_min : ℕ) (delta : ℚ) : Bool × HSimplex :=
  hTfmAux f (s.hget_vertex h i_min) (hread h s.dxid) delta
    (s.fl.getD i_min 0) (List.range s.N) s

/-- Store-level `take_a_step`. -/
def HSimplex.htake_a_step (s : HSimplex) (f : List ℚ → ℚ) (h : Heap)
    (Kreflect Kextend Kcontract : ℚ) : HSimplex × Heap :=
  let i_low := lowestIdx s.fl s.N (-1)
  let i_high := highestIdx s.fl s.N (-1)
  let x_high := hread h (s.vids.getD i_high 0)
  let f_high := s.fl.getD i_high 0
  let x_mid := s.hcentroid h (i_high : ℤ)
  let f_mid := f x_mid
  let s1 := { s with nfe := s.nfe + 1 }
  let x_refl := vlincomb (1 + Kreflect) x_mid (-Kreflect) x_high
  let f_refl := f x_refl
  let s2 := { s1 with nfe := s1.nfe + 1 }
  if f_refl < f_mid then
    let x_ext := vlincomb Kextend x_refl (1 - Kextend) x_mid
    let f_ext := f x_ext
    let s3 := { s2 with nfe := s2.nfe + 1 }
    if f_ext < f_refl then s3.hreplace_vertex h i_high x_ext f_ext
    else s3.hreplace_vertex h i_high x_refl f_refl
  else
    let count := (List.range (s.N + 1)).countP
      (fun i => decide (f_refl < s.fl.getD i 0))
    if count ≤ 1 then
      let x_con := vlincomb (1 - Kcontract) x_mid Kcontract x_high
      let f_con := f x_con
      let s3 := { s2 with nfe := s2.nfe + 1 }
      if f_con < f_high then s3.hreplace_vertex h i_high x_con f_con
      else s3.hcontract_about_one_point f h i_low
    else s2.hreplace_vertex h i_high x_refl f_refl

/-- Store-level `rescale`: the one in-place write to a long-lived
array, `self.dx *= ratio`, then a rebuild from fresh copies of the best
vertex. -/
def HSimplex.hrescale (s : HSimplex) (f : List ℚ → ℚ) (h : Heap)
    (rat : ℚ) : HSimplex × Heap :=
  let i_min := lowestIdx s.fl s.N (-1)
  let h1 := hwrite h s.dxid ((hread h s.dxid).map (fun a => a * rat))
  let x := hread h1 (s.vids.getD i_min 0)
  let f_min := s.fl.getD i_min 0
  let dxv := hread h1 s.dxid
  let verts := (List.range (s.N + 1)).map (fun i =>
    if i = 0 then x
    else x.set (i - 1) (x.getD (i - 1) 0 + dxv.getD (i - 1) 0))
  let r := hallocList verts h1
  ({ s with vids := r.2, fl := f_min :: (verts.drop 1).map f,
            nfe := s.nfe + s.N, nrestarts := s.nrestarts + 1 }, r.1)

/-- Store-level inner stepping loop. -/
def hSteps (f : List ℚ → ℚ) (Kreflect Kextend Kcontract : ℚ) :
    ℕ → HSimplex → Heap → HSimplex × Heap
  | 0, s, h => (s, h)
  | n + 1, s, h =>
    let r1 := s.htake_a_step f h Kreflect Kextend Kcontract
    hSteps f Kreflect Kextend Kcontract n r1.1 r1.2

/-- Store-level `minimize` while loop. -/
def hMinimizeLoop (f : List ℚ → ℚ) (tol : ℚ) (maxfe n_check : ℕ)
    (delta Kreflect Kextend Kcontract : ℚ) :
    ℕ → HSimplex → Heap → Option (List ℚ × ℚ) → Bool →
    Option (Option (List ℚ × ℚ) × Bool × HSimplex) × Heap
  | 0, _, h, _, _ => (none, h)
  | fuel + 1, s, h, best, converged =>
    if converged = false ∧ s.nfe < maxfe then
      let r1 := hSteps f Kreflect Kextend Kcontract n_check s h
      let s1 := r1.1
      let h1 := r1.2
      let i_best := lowestIdx s1.fl s1.N (-1)
      let x_best := s1.hget_vertex h1 i_best
      let f_best := s1.fl.getD i_best 0
      let st := fStats s1.fl s1.N
      if stddev_lt st.2 tol then
        let r2 := s1.htest_for_minimum f h1 i_best delta
        if r2.1 then
          hMinimizeLoop f tol maxfe n_check delta Kreflect Kextend Kcontract
            fuel r2.2 h1 (some (x_best, f_best)) true
        else
          let r3 := r2.2.hrescale f h1 delta
          hMinimizeLoop f tol maxfe n_check delta Kreflect Kextend Kcontract
            fuel r3.1 r3.2 (some (x_best, f_best)) false
      else
        hMinimizeLoop f tol maxfe n_check delta Kreflect Kextend Kcontract
          fuel s1 h1 (some (x_best, f_best)) false
    else (some (best, converged, s), h)

/-- Store-level `minimize`, acting on caller-owned arrays `xid`, `dxid`
in the heap.  Always returns the final heap, also on the error paths. -/
def hMinimize (f : List ℚ → ℚ) (h : Heap) (xid dxid : ℕ) (tol : ℚ)
    (maxfe n_check : ℕ) (delta Kreflect Kextend Kcontract : ℚ) :
    Option PyResult × Heap :=
  match hInit f h xid dxid with
  | none => (some PyResult.indexError, h)
  | some (s, h1) =>
    match hMinimizeLoop f tol maxfe n_check delta Kreflect Kextend Kcontract
        (maxfe + 1) s h1 none false with
    | (none, h2) => (none, h2)
    | (some (best, conv, sFin), h2) =>
      match best with
      | none => (some PyResult.unboundLocal, h2)
      | some bf =>
        (some (PyResult.ok bf.1 bf.2 conv sFin.nfe sFin.nrestarts), h2)

/-!
Helper lemmas shared by the claim theorems.
-/

/-- Setting slot `i` does not change reads at `j ≠ i`. -/
lemma getD_set_ne {α : Type} (l : List α) (v d : α) {i j : ℕ} (h : i ≠ j) :
    (l.set i v).getD j d = l.getD j d := by
  simp [List.getD_eq_getElem?_getD, List.getElem?_set_ne h]

/-- The embedded convergence test agrees with the Python test
`math.sqrt v < tol`. -/
lemma stddev_lt_iff_sqrt_lt (v tol : ℚ) :
    stddev_lt v tol = true ↔ Real.sqrt (v : ℝ) < (tol : ℝ) := by
  unfold stddev_lt
  rcases lt_or_le 0 tol with ht | ht
  · have h2 : ((tol : ℝ)) ^ 2 = ((tol * tol : ℚ) : ℝ) := by push_cast; ring
    rw [Bool.and_eq_true, decide_eq_true_iff, decide_eq_true_iff,
      Real.sqrt_lt' (by exact_mod_cast ht), h2, Rat.cast_lt]
    simp [ht]
  · constructor
    · intro h
      rw [Bool.and_eq_true, decide_eq_true_iff, decide_eq_true_iff] at h
      exact absurd h.1 (not_lt.mpr ht)
    · intro h
      have h1 := Real.sqrt_nonneg (v : ℝ)
      have h2 : (tol : ℝ) ≤ 0 := by exact_mod_cast ht
      linarith

/-- Specification of the scanning loop of `lowest`: assuming the
incumbent value is the incumbent index's cached value, the result beats
the incumbent and every non-excluded scanned index, and is one of them. -/
lemma scanLow_spec (fl : List ℚ) (e : ℤ) (L : List ℕ) :
    ∀ (bv : ℚ) (bi : ℕ), fl.getD bi 0 = bv →
      fl.getD (scanIdxAux fl e (fun a b => a < b) L bv bi) 0 ≤ bv ∧
      (∀ i ∈ L, (i : ℤ) ≠ e →
        fl.getD (scanIdxAux fl e (fun a b => a < b) L bv bi) 0 ≤ fl.getD i 0) ∧
      (scanIdxAux fl e (fun a b => a < b) L bv bi ∈ L ∨
        scanIdxAux fl e (fun a b => a < b) L bv bi = bi) := by
  induction L with
  | nil => intro bv bi h; exact ⟨le_of_eq h, by simp, Or.inr rfl⟩
  | cons i rest ih =>
    intro bv bi h
    unfold scanIdxAux
    by_cases hie : (i : ℤ) = e
    · rw [if_pos hie]
      obtain ⟨h1, h2, h3⟩ := ih bv bi h
      refine ⟨h1, ?_, ?_⟩
      · intro i' hi' hne
        rcases List.mem_cons.mp hi' with rfl | hi'
        · exact absurd hie hne
        · exact h2 i' hi' hne
      · rcases h3 with h3 | h3
        · exact Or.inl (List.mem_cons_of_mem _ h3)
        · exact Or.inr h3
    · rw [if_neg hie]
      by_cases hlt : fl.getD i 0 < bv
      · rw [if_pos hlt]
        obtain ⟨h1, h2, h3⟩ := ih (fl.getD i 0) i rfl
        refine ⟨le_trans h1 (le_of_lt hlt), ?_, ?_⟩
        · intro i' hi' hne
          rcases List.mem_cons.mp hi' with rfl | hi'
          · exact h1
          · exact h2 i' hi' hne
        · rcases h3 with h3 | h3
          · exact Or.inl (List.mem_cons_of_mem _ h3)
          · exact Or.inl (by rw [h3]; exact List.mem_cons_self i rest)
      · rw [if_neg hlt]
        obtain ⟨h1, h2, h3⟩ := ih bv bi h
        refine ⟨h1, ?_, ?_⟩
        · intro i' hi' hne
          rcases List.mem_cons.mp hi' with rfl | hi'
          · exact le_trans h1 (not_lt.mp hlt)
          · exact h2 i' hi' hne
        · rcases h3 with h3 | h3
          · exact Or.inl (List.mem_cons_of_mem _ h3)
          · exact Or.inr h3

/-- Specification of the scanning loop of `highest` (mirror image). -/
lemma scanHigh_spec (fl : List ℚ) (e : ℤ) (L : List ℕ) :
    ∀ (bv : ℚ) (bi : ℕ), fl.getD bi 0 = bv →
      bv ≤ fl.getD (scanIdxAux fl e (fun a b => b < a) L bv bi) 0 ∧
      (∀ i ∈ L, (i : ℤ) ≠ e →
        fl.getD i 0 ≤ fl.getD (scanIdxAux fl e (fun a b => b < a) L bv bi) 0) ∧
      (scanIdxAux fl e (fun a b => b < a) L bv bi ∈ L ∨
        scanIdxAux fl e (fun a b => b < a) L bv bi = bi) := by
  induction L with
  | nil => intro bv bi h; exact ⟨le_of_eq h.symm, by simp, Or.inr rfl⟩
  | cons i rest ih =>
    intro bv bi h
    unfold scanIdxAux
    by_cases hie : (i : ℤ) = e
    · rw [if_pos hie]
      obtain ⟨h1, h2, h3⟩ := ih bv bi h
      refine ⟨h1, ?_, ?_⟩
      · intro i' hi' hne
        rcases List.mem_cons.mp hi' with rfl | hi'
        · exact absurd hie hne
        · exact h2 i' hi' hne
      · rcases h3 with h3 | h3
        · exact Or.inl (List.mem_cons_of_mem _ h3)
        · exact Or.inr h3
    · rw [if_neg hie]
      by_cases hlt : bv < fl.getD i 0
      · rw [if_pos hlt]
        obtain ⟨h1, h2, h3⟩ := ih (fl.getD i 0) i rfl
        refine ⟨le_trans (le_of_lt hlt) h1, ?_, ?_⟩
        · intro i' hi' hne
          rcases List.mem_cons.mp hi' with rfl | hi'
          · exact h1
          · exact h2 i' hi' hne
        · rcases h3 with h3 | h3
          · exact Or.inl (List.mem_cons_of_mem _ h3)
          · exact Or.inl (by rw [h3]; exact List.mem_cons_self i rest)
      · rw [if_neg hlt]
        obtain ⟨h1, h2, h3⟩ := ih bv bi h
        refine ⟨h1, ?_, ?_⟩
        · intro i' hi' hne
          rcases List.mem_cons.mp hi' with rfl | hi'
          · exact le_trans (not_lt.mp hlt) h1
          · exact h2 i' hi' hne
        · rcases h3 with h3 | h3
          · exact Or.inl (List.mem_cons_of_mem _ h3)
          · exact Or.inr h3

/-- `lowest` with no exclusion returns an index whose cached value is a
minimum of the scanned range. -/
lemma lowestIdx_le (fl : List ℚ) (N : ℕ) :
    ∀ i, i < N + 1 → fl.getD (lowestIdx fl N (-1)) 0 ≤ fl.getD i 0 := by
  intro i hi
  have h := scanLow_spec fl (-1) (List.range (N + 1)) (fl.getD 0 0) 0 rfl
  have hne : (i : ℤ) ≠ -1 := by omega
  have := h.2.1 i (List.mem_range.mpr hi) hne
  simpa [lowestIdx] using this

/-- `lowest` with no exclusion returns an in-range index. -/
lemma lowestIdx_lt (fl : List ℚ) (N : ℕ) : lowestIdx fl N (-1) < N + 1 := by
  have h := (scanLow_spec fl (-1) (List.range (N + 1)) (fl.getD 0 0) 0 rfl).2.2
  have heq : lowestIdx fl N (-1)
      = scanIdxAux fl (-1) (fun a b => a < b) (List.range (N + 1)) (fl.getD 0 0) 0 := rfl
  rw [heq]
  rcases h with h | h
  · exact List.mem_range.mp h
  · omega

/-- `highest` with no exclusion returns an index whose cached value is
a maximum of the scanned range. -/
lemma highestIdx_ge (fl : List ℚ) (N : ℕ) :
    ∀ i, i < N + 1 → fl.getD i 0 ≤ fl.getD (highestIdx fl N (-1)) 0 := by
  intro i hi
  have h := scanHigh_spec fl (-1) (List.range (N + 1)) (fl.getD 0 0) 0 rfl
  have hne : (i : ℤ) ≠ -1 := by omega
  have := h.2.1 i (List.mem_range.mpr hi) hne
  simpa [highestIdx] using this

/-- `highest` with no exclusion returns an in-range index. -/
lemma highestIdx_lt (fl : List ℚ) (N : ℕ) : highestIdx fl N (-1) < N + 1 := by
  have h := (scanHigh_spec fl (-1) (List.range (N + 1)) (fl.getD 0 0) 0 rfl).2.2
  have heq : highestIdx fl N (-1)
      = scanIdxAux fl (-1) (fun a b => b < a) (List.range (N + 1)) (fl.getD 0 0) 0 := rfl
  rw [heq]
  rcases h with h | h
  · exact List.mem_range.mp h
  · omega

/-- Folding `acc + g i` over a range is the base plus the mapped sum. -/
lemma foldl_add_range (g : ℕ → ℚ) (n : ℕ) :
    ∀ b : ℚ, (List.range n).foldl (fun acc i => acc + g i) b
      = b + ((List.range n).map g).sum := by
  induction n with
  | zero => intro b; simp
  | succ n ih =>
    intro b
    rw [List.range_succ, List.foldl_append, List.map_append, List.sum_append, ih]
    simp [add_assoc]

/-- Indexing a list over the range of its length is the list itself
(mapped through `g`). -/
lemma map_range_getD {β : Type} (g : ℚ → β) :
    ∀ l : List ℚ, (List.range l.length).map (fun i => g (l.getD i 0)) = l.map g := by
  intro l
  induction l with
  | nil => simp
  | cons a t ih =>
    have hfun : ((fun i => g ((a :: t).getD i 0)) ∘ Nat.succ)
        = fun i => g (t.getD i 0) := by
      funext i; rfl
    rw [List.length_cons, List.range_succ_eq_map, List.map_cons, List.map_map, hfun, ih]
    rfl

/-!
Claim C7 — `f_statistics` returns mean `sum/(N+1)` and standard
deviation `sqrt(sum((f_i - mean)^2)/N)` (denominator `N`), zero when
all cached values are equal.
-/

/-- C7: `f_statistics` computes the mean with denominator `N+1` and
the standard-deviation radicand with denominator `N`; when all `N+1`
cached values are equal, the standard deviation is exactly 0. -/
theorem C7_f_statistics (s : NMSimplex) (hlen : s.f_list.length = s.N + 1) :
    s.f_statistics.1 = s.f_list.sum / ((s.N : ℚ) + 1) ∧
    s.f_statistics.2 =
      (s.f_list.map (fun v => (v - s.f_list.sum / ((s.N : ℚ) + 1)) ^ 2)).sum
        / (s.N : ℚ) ∧
    ∀ c : ℚ, (∀ v ∈ s.f_list, v = c) →
      s.f_statistics.2 = 0 ∧ Real.sqrt ((s.f_statistics.2 : ℚ) : ℝ) = 0 := by
  have hmean : s.f_statistics.1 = s.f_list.sum / ((s.N : ℚ) + 1) := rfl
  set mean := s.f_list.sum / ((s.N : ℚ) + 1) with hm
  have hvar : s.f_statistics.2 =
      (s.f_list.map (fun v => (v - mean) ^ 2)).sum / (s.N : ℚ) := by
    show ((List.range (s.N + 1)).foldl
        (fun acc i => acc + (s.f_list.getD i 0 - mean) * (s.f_list.getD i 0 - mean)) 0)
        / (s.N : ℚ) = _
    rw [foldl_add_range (fun i => (s.f_list.getD i 0 - mean) * (s.f_list.getD i 0 - mean)) (s.N + 1) 0]
    rw [← hlen, map_range_getD (fun v => (v - mean) * (v - mean)) s.f_list]
    have hsq : (fun v : ℚ => (v - mean) * (v - mean)) = fun v : ℚ => (v - mean) ^ 2 := by
      funext v; ring
    rw [hsq, zero_add]
  refine ⟨hmean, hvar, ?_⟩
  intro c hc
  have hrepl : s.f_list = List.replicate (s.N + 1) c :=
    List.eq_replicate_iff.mpr ⟨hlen, hc⟩
  have hNe : ((s.N : ℚ) + 1) ≠ 0 := by positivity
  have hmc : mean = c := by
    rw [hm, hrepl, List.sum_replicate, nsmul_eq_mul]
    push_cast
    field_simp
  have hz : s.f_statistics.2 = 0 := by
    rw [hvar, hrepl, hmc, List.map_replicate]
    simp
  exact ⟨hz, by rw [hz]; simp⟩

/-!
Claim C3 — the constructor error case.  The Python constructor raises
(`IndexError` on `dx[i-1]`) exactly when `dx` is SHORTER than the seed;
a longer `dx` is accepted with the extra components ignored, refuting
the claim that any length difference raises.
-/

/-- C3 counterexample: seed of length 1, `dx` of length 2 — the lengths
differ, yet construction succeeds (no error), contradicting the claim
that a mismatch in either direction raises at construction time. -/
theorem C3_counterexample :
    ([(0 : ℚ)].length ≠ [(1 : ℚ), 2].length) ∧
    initT [0] [1, 2] (fun _ => 0) ≠ none := by decide

/-- C3 amended: construction fails exactly when `dx` is shorter than
the seed, and `minimize` reports that constructor failure (and nothing
else) as the dimension-mismatch error, unrecovered. -/
theorem C3_amended (x dx : List ℚ) (f : List ℚ → ℚ) (tol : ℚ)
    (maxfe n_check : ℕ) (delta K1 K2 K3 : ℚ) :
    (initT x dx f = none ↔ dx.length < x.length) ∧
    (minimizeT f x (some dx) tol maxfe n_check delta K1 K2 K3
        = some (PyResult.indexError, []) ↔ dx.length < x.length) := by
  have hinit : initT x dx f = none ↔ dx.length < x.length := by
    unfold initT
    split_ifs with h <;> simp [h]
  refine ⟨hinit, ?_⟩
  rcases hI : initT x dx f with _ | p
  · have hres : minimizeT f x (some dx) tol maxfe n_check delta K1 K2 K3
        = some (PyResult.indexError, []) := by
      unfold minimizeT
      simp only [Option.getD_some, hI]
    exact iff_of_true hres (hinit.mp hI)
  · have hlen : ¬ dx.length < x.length := by
      intro hc
      rw [hinit.mpr hc] at hI
      exact Option.noConfusion hI
    have hres : minimizeT f x (some dx) tol maxfe n_check delta K1 K2 K3
        ≠ some (PyResult.indexError, []) := by
      unfold minimizeT
      simp only [Option.getD_some, hI]
      rcases hL : minimizeLoopT f tol maxfe n_check delta K1 K2 K3
          (maxfe + 1) p.1 none false p.2 with _ | q
      · simp
      · rcases q with ⟨best, conv, sF, tr⟩
        rcases best with _ | bf <;> simp
    exact iff_of_false hres hlen

/-!
Claim C2 — `minimize` is claimed to return a 5-tuple for ALL parameter
values, in particular when `maxfe ≤ N+1`.  In the source, `x_best` is
assigned only inside the `while` loop body; with `maxfe ≤ N+1` the
initial simplex already exhausts the budget (`nfe = N+1 ≥ maxfe`), the
loop body never runs, and `return x_best, ...` raises
`UnboundLocalError`.  The claim is right about the documented contract
and the code is wrong: this is a code bug.
-/

/-- C2: at the failing input (N = 1, `maxfe = 2 = N+1`) the run ends in
the `UnboundLocalError` on `x_best` instead of returning the promised
5-tuple. -/
theorem C2_code_bug :
    minimize (fun _ => 0) [0] (some [1]) (1/1000000) 2 20 (1/1000) 1 2 (1/2)
      = some PyResult.unboundLocal := by decide

/-- C3 witness: a concretely shorter `dx` makes construction fail. -/
theorem C3_amended_witness : initT [0, 0] [1] (fun _ => 0) = none :=
  (C3_amended [0, 0] [1] (fun _ => 0) 1 1 1 1 1 1 1).1.mpr (by decide)

/-- C7 witness: concrete 1-dimensional simplex with equal cached
values; the radicand is exactly 0. -/
theorem C7_witness :
    (⟨1, [[0], [0]], [3, 3], [1], 2, 0⟩ : NMSimplex).f_list.length = 1 + 1 ∧
    (NMSimplex.f_statistics ⟨1, [[0], [0]], [3, 3], [1], 2, 0⟩).2 = 0 := by
  have h := C7_f_statistics ⟨1, [[0], [0]], [3, 3], [1], 2, 0⟩ (by decide)
  exact ⟨by decide, (h.2.2 3 (by decide)).1⟩

/-!
Claims C10 and C4 — `test_for_minimum`.
-/

/-- The loop of `test_for_minimum` touches no state but `nfe`, which it
never decreases. -/
lemma tfmAuxT_frame (f : List ℚ → ℚ) (i_min : ℕ) (delta f_min : ℚ)
    (L : List ℕ) : ∀ s : NMSimplex,
    (tfmAuxT f i_min delta f_min L s).2.1.vertex_list = s.vertex_list ∧
    (tfmAuxT f i_min delta f_min L s).2.1.f_list = s.f_list ∧
    (tfmAuxT f i_min delta f_min L s).2.1.dx = s.dx ∧
    (tfmAuxT f i_min delta f_min L s).2.1.N = s.N ∧
    (tfmAuxT f i_min delta f_min L s).2.1.nrestarts = s.nrestarts ∧
    s.nfe ≤ (tfmAuxT f i_min delta f_min L s).2.1.nfe := by
  induction L with
  | nil => intro s; exact ⟨rfl, rfl, rfl, rfl, rfl, le_refl _⟩
  | cons j rest ih =>
    intro s
    unfold tfmAuxT
    dsimp only
    split_ifs with h1 h2
    · exact ⟨rfl, rfl, rfl, rfl, rfl, Nat.le_succ _⟩
    · exact ⟨rfl, rfl, rfl, rfl, rfl, Nat.le_add_right s.nfe 2⟩
    · obtain ⟨a, b, c, d, e, hle⟩ := ih { s with nfe := s.nfe + 1 + 1 }
      exact ⟨a, b, c, d, e, le_trans (Nat.le_add_right _ 2) hle⟩

/-- C10: `test_for_minimum` changes no simplex state other than the
evaluation counter `nfe` — `vertex_list`, `f_list`, `dx`, `N` and
`nrestarts` are unchanged (so an improving probe point is discarded,
never installed), and `nfe` does not decrease. -/
theorem C10_test_for_minimum_frame (f : List ℚ → ℚ) (s : NMSimplex)
    (i_min : ℕ) (delta : ℚ) :
    (s.test_for_minimumT f i_min delta).2.1.vertex_list = s.vertex_list ∧
    (s.test_for_minimumT f i_min delta).2.1.f_list = s.f_list ∧
    (s.test_for_minimumT f i_min delta).2.1.dx = s.dx ∧
    (s.test_for_minimumT f i_min delta).2.1.N = s.N ∧
    (s.test_for_minimumT f i_min delta).2.1.nrestarts = s.nrestarts ∧
    s.nfe ≤ (s.test_for_minimumT f i_min delta).2.1.nfe :=
  tfmAuxT_frame f i_min delta (s.f_list.getD i_min 0) (List.range s.N) s

/-- Full characterisation of the `test_for_minimum` loop over the axis
segment `range' a n`, relative to a base simplex `s` sharing the
vertex list and `dx` of the running state `st`. -/
lemma tfmAux_char (f : List ℚ → ℚ) (i_min : ℕ) (delta f_min : ℚ)
    (s : NMSimplex) (n : ℕ) :
    ∀ (a : ℕ) (st : NMSimplex),
      st.vertex_list = s.vertex_list → st.dx = s.dx →
      ((tfmAuxT f i_min delta f_min (List.range' a n) st).1 = true ↔
        ∀ j, a ≤ j → j < a + n →
          ¬ f (probe1 s i_min j delta) < f_min ∧
          ¬ f (probe2 s i_min j delta) < f_min) ∧
      ((tfmAuxT f i_min delta f_min (List.range' a n) st).1 = true →
        (tfmAuxT f i_min delta f_min (List.range' a n) st).2.1.nfe
          = st.nfe + 2 * n) ∧
      ((tfmAuxT f i_min delta f_min (List.range' a n) st).1 = false →
        ∃ jj, a ≤ jj ∧ jj < a + n ∧
          (∀ j, a ≤ j → j < jj →
            ¬ f (probe1 s i_min j delta) < f_min ∧
            ¬ f (probe2 s i_min j delta) < f_min) ∧
          ((f (probe1 s i_min jj delta) < f_min ∧
              (tfmAuxT f i_min delta f_min (List.range' a n) st).2.1.nfe
                = st.nfe + 2 * (jj - a) + 1) ∨
           (¬ f (probe1 s i_min jj delta) < f_min ∧
              f (probe2 s i_min jj delta) < f_min ∧
              (tfmAuxT f i_min delta f_min (List.range' a n) st).2.1.nfe
                = st.nfe + 2 * (jj - a) + 2))) := by
  induction n with
  | zero =>
    intro a st hv hdx
    refine ⟨iff_of_true rfl ?_, fun _ => by simp [tfmAuxT], fun hc => ?_⟩
    · intro j hj1 hj2; omega
    · exact absurd hc (by simp [tfmAuxT])
  | succ n ihn =>
    intro a st hv hdx
    have hp1 : (st.get_vertex i_min).set a
        ((st.get_vertex i_min).getD a 0 + st.dx.getD a 0 * delta)
        = probe1 s i_min a delta := by
      simp [probe1, NMSimplex.get_vertex, hv, hdx]
    have hp2 : (probe1 s i_min a delta).set a
        ((probe1 s i_min a delta).getD a 0 - st.dx.getD a 0 * delta * 2)
        = probe2 s i_min a delta := by
      simp [probe2, hdx]
    rw [List.range'_succ]
    unfold tfmAuxT
    dsimp only
    rw [hp1, hp2]
    by_cases h1 : f (probe1 s i_min a delta) < f_min
    · rw [if_pos h1]
      refine ⟨iff_of_false (by simp) ?_, fun hc => absurd hc (by simp), fun _ => ?_⟩
      · intro hall
        exact absurd h1 (hall a le_rfl (by omega)).1
      · refine ⟨a, le_rfl, by omega, fun j hj1 hj2 => absurd hj2 (by omega), ?_⟩
        exact Or.inl ⟨h1, by simp⟩
    · rw [if_neg h1]
      by_cases h2 : f (probe2 s i_min a delta) < f_min
      · rw [if_pos h2]
        refine ⟨iff_of_false (by simp) ?_, fun hc => absurd hc (by simp), fun _ => ?_⟩
        · intro hall
          exact absurd h2 (hall a le_rfl (by omega)).2
        · refine ⟨a, le_rfl, by omega, fun j hj1 hj2 => absurd hj2 (by omega), ?_⟩
          exact Or.inr ⟨h1, h2, by simp⟩
      · rw [if_neg h2]
        obtain ⟨ih1, ih2, ih3⟩ := ihn (a + 1) { st with nfe := st.nfe + 1 + 1 } hv hdx
        refine ⟨?_, ?_, ?_⟩
        · rw [ih1]
          constructor
          · intro hall j hj1 hj2
            rcases Nat.eq_or_lt_of_le hj1 with rfl | hj1'
            · exact ⟨h1, h2⟩
            · exact hall j hj1' (by omega)
          · intro hall j hj1 hj2
            exact hall j (by omega) (by omega)
        · intro ht
          have := ih2 ht
          simp only [this]
          omega
        · intro hf
          obtain ⟨jj, hjj1, hjj2, hpre, hcase⟩ := ih3 hf
          refine ⟨jj, by omega, by omega, ?_, ?_⟩
          · intro j hj1 hj2
            rcases Nat.eq_or_lt_of_le hj1 with rfl | hj1'
            · exact ⟨h1, h2⟩
            · exact hpre j hj1' hj2
          · rcases hcase with ⟨hc1, hc2⟩ | ⟨hc1, hc2, hc3⟩
            · exact Or.inl ⟨hc1, by simp only [hc2]; omega⟩
            · exact Or.inr ⟨hc1, hc2, by simp only [hc3]; omega⟩

/-- C4: `test_for_minimum` probes each axis `j` at the best vertex plus
`dx[j]*delta` (`probe1`) and then at that probe minus `2*dx[j]*delta`
(`probe2`); it returns true iff none of the up-to-`2N` probes is
strictly below the cached best value, making exactly `2N` evaluations
in that case, and returns false at the first improving probe, having
evaluated only the probes up to and including it. -/
theorem C4_test_for_minimum (f : List ℚ → ℚ) (s : NMSimplex) (i_min : ℕ)
    (delta : ℚ) :
    ((s.test_for_minimumT f i_min delta).1 = true ↔
      ∀ j, j < s.N →
        ¬ f (probe1 s i_min j delta) < s.f_list.getD i_min 0 ∧
        ¬ f (probe2 s i_min j delta) < s.f_list.getD i_min 0) ∧
    ((s.test_for_minimumT f i_min delta).1 = true →
      (s.test_for_minimumT f i_min delta).2.1.nfe = s.nfe + 2 * s.N) ∧
    ((s.test_for_minimumT f i_min delta).1 = false →
      ∃ jj, jj < s.N ∧
        (∀ j, j < jj →
          ¬ f (probe1 s i_min j delta) < s.f_list.getD i_min 0 ∧
          ¬ f (probe2 s i_min j delta) < s.f_list.getD i_min 0) ∧
        ((f (probe1 s i_min jj delta) < s.f_list.getD i_min 0 ∧
            (s.test_for_minimumT f i_min delta).2.1.nfe = s.nfe + 2 * jj + 1) ∨
         (¬ f (probe1 s i_min jj delta) < s.f_list.getD i_min 0 ∧
            f (probe2 s i_min jj delta) < s.f_list.getD i_min 0 ∧
            (s.test_for_minimumT f i_min delta).2.1.nfe = s.nfe + 2 * jj + 2))) := by
  have hrange : List.range s.N = List.range' 0 s.N := List.range_eq_range' s.N
  have h := tfmAux_char f i_min delta (s.f_list.getD i_min 0) s s.N 0 s rfl rfl
  rw [← hrange] at h
  obtain ⟨h1, h2, h3⟩ := h
  refine ⟨?_, ?_, ?_⟩
  · rw [show (s.test_for_minimumT f i_min delta).1
        = (tfmAuxT f i_min delta (s.f_list.getD i_min 0) (List.range s.N) s).1 from rfl, h1]
    constructor
    · intro hall j hj; exact hall j (Nat.zero_le j) (by omega)
    · intro hall j _ hj; exact hall j (by omega)
  · intro ht
    exact h2 ht
  · intro hf
    obtain ⟨jj, _, hjj2, hpre, hcase⟩ := h3 hf
    refine ⟨jj, by omega, fun j hj => hpre j (Nat.zero_le j) hj, ?_⟩
    rcases hcase with ⟨hc1, hc2⟩ | ⟨hc1, hc2, hc3⟩
    · exact Or.inl ⟨hc1, hc2⟩
    · exact Or.inr ⟨hc1, hc2, hc3⟩

/-- C4 witness: on a concrete simplex where neither probe improves, the
result is true and exactly `2N = 2` evaluations were made. -/
theorem C4_witness :
    ((⟨1, [[0]], [5], [1], 2, 0⟩ : NMSimplex).test_for_minimumT
      (fun _ => 10) 0 1).2.1.nfe = 2 + 2 * 1 :=
  (C4_test_for_minimum (fun _ => 10) ⟨1, [[0]], [5], [1], 2, 0⟩ 0 1).2.1 (by decide)

/-!
Claim C5 — `rescale`.
-/

/-- C5: `rescale(ratio)` with `0 < ratio < 1` multiplies every `dx`
component by `ratio` (strictly shrinking each magnitude, never to zero,
given the simplex invariant that `dx` components are nonzero), rebuilds
the simplex about the current best vertex exactly as construction would
with the shrunk `dx`, keeps the best vertex in slot 0 with its cached
value, makes exactly `N` objective evaluations, and increments
`nrestarts` by exactly 1. -/
theorem C5_rescale (f : List ℚ → ℚ) (s : NMSimplex) (rat : ℚ)
    (hrat0 : 0 < rat) (hrat1 : rat < 1)
    (hdxlen : s.dx.length = s.N)
    (hdx : ∀ q ∈ s.dx, q ≠ 0)
    (hbest : (s.vertex_list.getD (s.lowest (-1)) []).length = s.N) :
    (s.rescaleT f rat).1.dx = s.dx.map (fun a => a * rat) ∧
    (∀ j, j < s.N →
      |(s.rescaleT f rat).1.dx.getD j 0| < |s.dx.getD j 0| ∧
      (s.rescaleT f rat).1.dx.getD j 0 ≠ 0) ∧
    (s.rescaleT f rat).1.vertex_list.getD 0 []
      = s.vertex_list.getD (s.lowest (-1)) [] ∧
    (s.rescaleT f rat).1.f_list.getD 0 0 = s.f_list.getD (s.lowest (-1)) 0 ∧
    (∃ t tr, initT (s.vertex_list.getD (s.lowest (-1)) [])
        ((s.rescaleT f rat).1.dx) f = some (t, tr) ∧
      (s.rescaleT f rat).1.vertex_list = t.vertex_list ∧
      (s.rescaleT f rat).1.f_list.drop 1 = t.f_list.drop 1) ∧
    (s.rescaleT f rat).2.length = s.N ∧
    (s.rescaleT f rat).1.nfe = s.nfe + s.N ∧
    (s.rescaleT f rat).1.nrestarts = s.nrestarts + 1 := by
  have hdxeq : (s.rescaleT f rat).1.dx = s.dx.map (fun a => a * rat) := rfl
  rw [hdxeq]
  refine ⟨rfl, ?_, ?_, rfl, ?_, ?_, rfl, rfl⟩
  · intro j hj
    have hjlen : j < s.dx.length := by omega
    have hmem : s.dx.getD j 0 ∈ s.dx := by
      rw [List.getD_eq_getElem s.dx 0 hjlen]
      exact List.getElem_mem hjlen
    have hne : s.dx.getD j 0 ≠ 0 := hdx _ hmem
    have hmap : (s.dx.map (fun a => a * rat)).getD j 0 = s.dx.getD j 0 * rat := by
      rw [List.getD_eq_getElem _ 0 (by simpa using hjlen),
        List.getElem_map, ← List.getD_eq_getElem s.dx 0 hjlen]
    refine ⟨?_, ?_⟩
    · rw [hmap, abs_mul]
      have h0 : 0 < |s.dx.getD j 0| := abs_pos.mpr hne
      calc |s.dx.getD j 0| * |rat| < |s.dx.getD j 0| * 1 := by
            apply mul_lt_mul_of_pos_left _ h0
            rw [abs_of_pos hrat0]; exact hrat1
        _ = |s.dx.getD j 0| := mul_one _
    · rw [hmap]
      exact mul_ne_zero hne (ne_of_gt hrat0)
  · show ((List.range (s.N + 1)).map _).getD 0 [] = _
    rw [List.range_succ_eq_map, List.map_cons, List.getD_cons_zero]
    simp
  · set x := s.vertex_list.getD (s.lowest (-1)) [] with hx
    set dxNew := s.dx.map (fun a => a * rat) with hdxn
    have hlen2 : dxNew.length = s.N := by
      rw [hdxn, List.length_map, hdxlen]
    have hxlen : x.length = s.N := hbest
    have hguard : ¬ dxNew.length < x.length := by
      rw [hlen2, hxlen]
      exact lt_irrefl s.N
    have hinit : initT x dxNew f = some
        (⟨x.length,
          (List.range (x.length + 1)).map (fun i =>
            if i = 0 then x
            else x.set (i - 1) (x.getD (i - 1) 0 + dxNew.getD (i - 1) 0)),
          ((List.range (x.length + 1)).map (fun i =>
            if i = 0 then x
            else x.set (i - 1) (x.getD (i - 1) 0 + dxNew.getD (i - 1) 0))).map f,
          dxNew, x.length + 1, 0⟩,
        (List.range (x.length + 1)).map (fun i =>
          if i = 0 then x
          else x.set (i - 1) (x.getD (i - 1) 0 + dxNew.getD (i - 1) 0))) := by
      unfold initT
      rw [if_neg hguard]
    refine ⟨_, _, hinit, ?_, ?_⟩
    · show (List.range (s.N + 1)).map (fun i =>
          if i = 0 then x
          else x.set (i - 1) (x.getD (i - 1) 0 + dxNew.getD (i - 1) 0)) = _
      rw [hxlen]
    · show ((s.f_list.getD (s.lowest (-1)) 0) ::
          (((List.range (s.N + 1)).map (fun i =>
            if i = 0 then x
            else x.set (i - 1) (x.getD (i - 1) 0 + dxNew.getD (i - 1) 0))).drop 1).map f).drop 1
          = _
      rw [List.drop_one, List.tail_cons, hxlen]
      exact List.map_drop f _ 1
  · show (((List.range (s.N + 1)).map _).drop 1).length = s.N
    simp

/-- C5 witness: a concrete 1-dimensional rescale halves `dx` and bumps
`nrestarts` from 0 to 1. -/
theorem C5_witness :
    ((⟨1, [[0], [1]], [2, 3], [1], 2, 0⟩ : NMSimplex).rescaleT
      (fun _ => 7) (1/2)).1.nrestarts = 0 + 1 :=
  (C5_rescale (fun _ => 7) ⟨1, [[0], [1]], [2, 3], [1], 2, 0⟩ (1/2)
    (by norm_num) (by norm_num) (by decide) (by decide)
    (by decide)).2.2.2.2.2.2.2

/-!
Claim C6 — `nfe` counts objective evaluations exactly.  Each traced
operation's `nfe` increase equals the length of its evaluation trace,
and the `n_evals` returned by `minimize` equals the length of the whole
run's trace.
-/

/-- The contraction loop bumps `nfe` once per traced evaluation. -/
lemma contractAuxT_nfe (f : List ℚ → ℚ) (i_con : ℕ) (p_con : List ℚ)
    (L : List ℕ) : ∀ s : NMSimplex,
    (contractAuxT f i_con p_con L s).1.nfe
      = s.nfe + (contractAuxT f i_con p_con L s).2.length := by
  induction L with
  | nil => intro s; simp [contractAuxT]
  | cons i rest ih =>
    intro s
    unfold contractAuxT
    dsimp only
    split_ifs with h1
    · exact ih s
    · have := ih { s with
        f_list := s.f_list.set i (f (vlincomb (1/2) (s.vertex_list.getD i []) (1/2) p_con)),
        nfe := s.nfe + 1,
        vertex_list := s.vertex_list.set i
          (vlincomb (1/2) (s.vertex_list.getD i []) (1/2) p_con) }
      simp only [List.length_cons]
      rw [this]
      dsimp only
      omega

/-- The probe loop bumps `nfe` once per traced evaluation. -/
lemma tfmAuxT_nfe (f : List ℚ → ℚ) (i_min : ℕ) (delta f_min : ℚ)
    (L : List ℕ) : ∀ s : NMSimplex,
    (tfmAuxT f i_min delta f_min L s).2.1.nfe
      = s.nfe + (tfmAuxT f i_min delta f_min L s).2.2.length := by
  induction L with
  | nil => intro s; simp [tfmAuxT]
  | cons j rest ih =>
    intro s
    unfold tfmAuxT
    dsimp only
    split_ifs with h1 h2
    · simp
    · simp
    · have := ih { s with nfe := s.nfe + 1 + 1 }
      simp only [List.length_cons]
      rw [this]
      dsimp only
      omega

/-- `contract_about_one_point` bumps `nfe` once per traced evaluation. -/
lemma contract_about_one_pointT_nfe (f : List ℚ → ℚ) (s : NMSimplex)
    (i_con : ℕ) :
    (s.contract_about_one_pointT f i_con).1.nfe
      = s.nfe + (s.contract_about_one_pointT f i_con).2.length :=
  contractAuxT_nfe f i_con _ _ s

/-- `test_for_minimum` bumps `nfe` once per traced evaluation. -/
lemma test_for_minimumT_nfe (f : List ℚ → ℚ) (s : NMSimplex) (i_min : ℕ)
    (delta : ℚ) :
    (s.test_for_minimumT f i_min delta).2.1.nfe
      = s.nfe + (s.test_for_minimumT f i_min delta).2.2.length :=
  tfmAuxT_nfe f i_min delta _ _ s

/-- `take_a_step` bumps `nfe` once per traced evaluation. -/
lemma take_a_stepT_nfe (f : List ℚ → ℚ) (K1 K2 K3 : ℚ) (s : NMSimplex) :
    (s.take_a_stepT f K1 K2 K3).1.nfe
      = s.nfe + (s.take_a_stepT f K1 K2 K3).2.length := by
  unfold NMSimplex.take_a_stepT
  dsimp only
  split_ifs with h1 h2 h3 h4
  · simp [NMSimplex.replace_vertex]
  · simp [NMSimplex.replace_vertex]
  · simp [NMSimplex.replace_vertex]
  · rw [contract_about_one_pointT_nfe]
    simp only [List.length_append, List.length_cons, List.length_nil]
    omega
  · simp [NMSimplex.replace_vertex]

/-- `rescale` bumps `nfe` once per traced evaluation. -/
lemma rescaleT_nfe (f : List ℚ → ℚ) (s : NMSimplex) (rat : ℚ) :
    (s.rescaleT f rat).1.nfe = s.nfe + (s.rescaleT f rat).2.length := by
  show s.nfe + s.N = s.nfe + (((List.range (s.N + 1)).map _).drop 1).length
  simp

/-- The constructor's `nfe` equals its trace length. -/
lemma initT_nfe (x dx : List ℚ) (f : List ℚ → ℚ) (s : NMSimplex)
    (tr : List (List ℚ)) (h : initT x dx f = some (s, tr)) :
    s.nfe = tr.length := by
  unfold initT at h
  split_ifs at h with hl
  simp only [Option.some.injEq, Prod.mk.injEq] at h
  obtain ⟨hs, htr⟩ := h
  rw [← hs, ← htr]
  simp

/-- The inner stepping loop bumps `nfe` once per traced evaluation. -/
lemma stepsT_nfe (f : List ℚ → ℚ) (K1 K2 K3 : ℚ) (n : ℕ) :
    ∀ s : NMSimplex, (stepsT f K1 K2 K3 n s).1.nfe
      = s.nfe + (stepsT f K1 K2 K3 n s).2.length := by
  induction n with
  | zero => intro s; simp [stepsT]
  | succ n ih =>
    intro s
    unfold stepsT
    dsimp only
    rw [ih, take_a_stepT_nfe]
    simp only [List.length_append]
    omega

/-- The outer `while` loop preserves the invariant
`nfe = accumulated trace length`. -/
lemma minimizeLoopT_nfe (f : List ℚ → ℚ) (tol : ℚ) (maxfe n_check : ℕ)
    (delta K1 K2 K3 : ℚ) : ∀ (fuel : ℕ) (s : NMSimplex)
    (best b : Option (List ℚ × ℚ)) (conv c : Bool)
    (acc tr : List (List ℚ)) (sFin : NMSimplex),
    minimizeLoopT f tol maxfe n_check delta K1 K2 K3 fuel s best conv acc
      = some (b, c, sFin, tr) →
    s.nfe = acc.length → sFin.nfe = tr.length := by
  intro fuel
  induction fuel with
  | zero =>
    intro s best b conv c acc tr sFin h
    exact absurd h (by simp [minimizeLoopT])
  | succ fuel ih =>
    intro s best b conv c acc tr sFin h hacc
    unfold minimizeLoopT at h
    by_cases hcond : conv = false ∧ s.nfe < maxfe
    · rw [if_pos hcond] at h
      dsimp only at h
      split_ifs at h with hstd hconv
      · refine ih _ _ _ _ _ _ _ _ h ?_
        rw [test_for_minimumT_nfe, stepsT_nfe]
        simp only [List.length_append]
        omega
      · refine ih _ _ _ _ _ _ _ _ h ?_
        rw [rescaleT_nfe, test_for_minimumT_nfe, stepsT_nfe]
        simp only [List.length_append]
        omega
      · refine ih _ _ _ _ _ _ _ _ h ?_
        rw [stepsT_nfe]
        simp only [List.length_append]
        omega
    · rw [if_neg hcond] at h
      simp only [Option.some.injEq, Prod.mk.injEq] at h
      obtain ⟨-, -, hs, htr⟩ := h
      rw [← hs, ← htr]
      exact hacc

/-- C6: across construction, `take_a_step`, `contract_about_one_point`,
`test_for_minimum` and `rescale`, the counter `nfe` grows by exactly
the number of objective evaluations made (the trace length), hence
never decreases; consequently the `n_evals` returned by a completed
`minimize` run equals the exact number of objective invocations of the
whole run, centroid evaluations included. -/
theorem C6_nfe_exact :
    (∀ (x dx : List ℚ) (f : List ℚ → ℚ) (s : NMSimplex) (tr : List (List ℚ)),
      initT x dx f = some (s, tr) → s.nfe = tr.length) ∧
    (∀ (f : List ℚ → ℚ) (K1 K2 K3 : ℚ) (s : NMSimplex),
      (s.take_a_stepT f K1 K2 K3).1.nfe
        = s.nfe + (s.take_a_stepT f K1 K2 K3).2.length) ∧
    (∀ (f : List ℚ → ℚ) (s : NMSimplex) (i_con : ℕ),
      (s.contract_about_one_pointT f i_con).1.nfe
        = s.nfe + (s.contract_about_one_pointT f i_con).2.length) ∧
    (∀ (f : List ℚ → ℚ) (s : NMSimplex) (i_min : ℕ) (delta : ℚ),
      (s.test_for_minimumT f i_min delta).2.1.nfe
        = s.nfe + (s.test_for_minimumT f i_min delta).2.2.length) ∧
    (∀ (f : List ℚ → ℚ) (s : NMSimplex) (rat : ℚ),
      (s.rescaleT f rat).1.nfe = s.nfe + (s.rescaleT f rat).2.length) ∧
    (∀ (f : List ℚ → ℚ) (x : List ℚ) (dxOpt : Option (List ℚ)) (tol : ℚ)
      (maxfe n_check : ℕ) (delta K1 K2 K3 : ℚ) (xb : List ℚ) (fb : ℚ)
      (cv : Bool) (ne nr : ℕ) (tr : List (List ℚ)),
      minimizeT f x dxOpt tol maxfe n_check delta K1 K2 K3
        = some (PyResult.ok xb fb cv ne nr, tr) → ne = tr.length) := by
  refine ⟨initT_nfe, take_a_stepT_nfe, contract_about_one_pointT_nfe,
    test_for_minimumT_nfe, rescaleT_nfe, ?_⟩
  intro f x dxOpt tol maxfe n_check delta K1 K2 K3 xb fb cv ne nr tr h
  unfold minimizeT at h
  dsimp only at h
  rcases hI : initT x (dxOpt.getD (List.replicate x.length (1/10))) f with _ | ⟨s0, tr0⟩
  · simp only [hI] at h
    exact absurd h (by simp)
  · simp only [hI] at h
    rcases hL : minimizeLoopT f tol maxfe n_check delta K1 K2 K3
        (maxfe + 1) s0 none false tr0 with _ | ⟨best, conv, sFin, trL⟩
    · simp only [hL] at h
      exact absurd h (by simp)
    · simp only [hL] at h
      rcases best with _ | bf
      · exact absurd h (by simp)
      · simp only [Option.some.injEq, Prod.mk.injEq, PyResult.ok.injEq] at h
        obtain ⟨⟨-, -, -, hne, -⟩, htr⟩ := h
        have hinit := initT_nfe _ _ _ s0 tr0 hI
        have hloop := minimizeLoopT_nfe f tol maxfe n_check delta K1 K2 K3
          (maxfe + 1) s0 none (some (bf.1, bf.2)) false conv tr0 trL sFin
          (by rw [hL]) hinit
        rw [← hne, ← htr] at *
        exact hloop

set_option maxRecDepth 4000 in
/-- C6 witness: a concrete completed run whose returned evaluation
count equals its trace length (8 evaluations). -/
theorem C6_witness : (8 : ℕ) =
    ([[0], [1], [1], [2], [(1:ℚ)/2], [(1:ℚ)/2], [(1:ℚ)/1000],
      [-(1:ℚ)/1000]] : List (List ℚ)).length :=
  C6_nfe_exact.2.2.2.2.2 (fun _ => (5:ℚ)) [0] (some [1]) 1 5 1 (1/1000) 1 2 (1/2)
    [0] 5 true 8 0
    [[0], [1], [1], [2], [(1:ℚ)/2], [(1:ℚ)/2], [(1:ℚ)/1000], [-(1:ℚ)/1000]]
    (by with_unfolding_all decide)

/-!
Claim C1 — the reflection-failure branch of `take_a_step`.  The code
counts the vertices whose cached value is strictly WORSE (greater) than
`f_refl` (`if self.f_list[i] > f_refl: count += 1`); the claim says it
counts the vertices strictly BETTER than `f_refl` and accepts the
reflection when more than one vertex beats it.  The two readings
disagree, so the claim is corrected.
-/

/-- Filtering a `Finset.range` counts the same elements as `countP`
over `List.range`. -/
lemma card_filter_range_eq_countP (n : ℕ) (p : ℕ → Prop) [DecidablePred p] :
    ((Finset.range n).filter p).card
      = (List.range n).countP (fun i => decide (p i)) := by
  induction n with
  | zero => simp
  | succ n ih =>
    rw [Finset.range_succ, Finset.filter_insert, List.range_succ,
      List.countP_append]
    by_cases hp : p n
    · rw [if_pos hp, Finset.card_insert_of_not_mem (by simp), ih]
      simp [hp]
    · rw [if_neg hp, ih]
      simp [hp]

/-- C1 counterexample: on `cexS` with the constant objective `cexF`,
Kreflect = 1, the worst slot is 2, the reflection is not below the
centroid value, and MORE than one vertex has a cached value strictly
better (lower) than `f_refl` — so the claim says the worst vertex is
replaced by the reflection outright; but `take_a_step` does not put the
reflection there (it contracts instead, because only one vertex is
worse than the reflection). -/
theorem C1_counterexample :
    cexS.highest (-1) = 2 ∧
    ¬ (cexF (vlincomb (1 + 1) (cexS.centroid 2) (-1)
        (cexS.vertex_list.getD 2 [])) < cexF (cexS.centroid 2)) ∧
    1 < ((Finset.range (cexS.N + 1)).filter (fun i =>
        cexS.f_list.getD i 0 < cexF (vlincomb (1 + 1) (cexS.centroid 2) (-1)
          (cexS.vertex_list.getD 2 [])))).card ∧
    (cexS.take_a_step cexF 1 2 (1/2)).vertex_list.getD 2 []
      ≠ vlincomb (1 + 1) (cexS.centroid 2) (-1)
          (cexS.vertex_list.getD 2 []) := by
  with_unfolding_all decide

/-- C1 amended: when the reflected value is not below the centroid
value, `take_a_step` counts the vertices whose cached value is strictly
WORSE (greater) than `f_refl`; if at most one vertex is worse than the
reflected point it attempts the contraction
`x_con = (1-Kcontract)*x_mid + Kcontract*x_high`, accepting it exactly
when it improves on the worst cached value and otherwise shrinking the
whole simplex toward the current best via `contract_about_one_point`;
if the reflection beats more than one vertex, the worst vertex is
replaced by the reflection outright. -/
theorem C1_amended (f : List ℚ → ℚ) (K1 K2 K3 : ℚ) (s : NMSimplex)
    (hge : ¬ f (vlincomb (1 + K1) (s.centroid (s.highest (-1) : ℤ)) (-K1)
        (s.vertex_list.getD (s.highest (-1)) []))
      < f (s.centroid (s.highest (-1) : ℤ))) :
    (1 < ((Finset.range (s.N + 1)).filter (fun i =>
        f (vlincomb (1 + K1) (s.centroid (s.highest (-1) : ℤ)) (-K1)
          (s.vertex_list.getD (s.highest (-1)) [])) < s.f_list.getD i 0)).card →
      s.take_a_step f K1 K2 K3
        = ({ s with nfe := s.nfe + 2 }).replace_vertex (s.highest (-1))
            (vlincomb (1 + K1) (s.centroid (s.highest (-1) : ℤ)) (-K1)
              (s.vertex_list.getD (s.highest (-1)) []))
            (f (vlincomb (1 + K1) (s.centroid (s.highest (-1) : ℤ)) (-K1)
              (s.vertex_list.getD (s.highest (-1)) [])))) ∧
    (((Finset.range (s.N + 1)).filter (fun i =>
        f (vlincomb (1 + K1) (s.centroid (s.highest (-1) : ℤ)) (-K1)
          (s.vertex_list.getD (s.highest (-1)) [])) < s.f_list.getD i 0)).card ≤ 1 →
      f (vlincomb (1 - K3) (s.centroid (s.highest (-1) : ℤ)) K3
          (s.vertex_list.getD (s.highest (-1)) []))
        < s.f_list.getD (s.highest (-1)) 0 →
      s.take_a_step f K1 K2 K3
        = ({ s with nfe := s.nfe + 3 }).replace_vertex (s.highest (-1))
            (vlincomb (1 - K3) (s.centroid (s.highest (-1) : ℤ)) K3
              (s.vertex_list.getD (s.highest (-1)) []))
            (f (vlincomb (1 - K3) (s.centroid (s.highest (-1) : ℤ)) K3
              (s.vertex_list.getD (s.highest (-1)) [])))) ∧
    (((Finset.range (s.N + 1)).filter (fun i =>
        f (vlincomb (1 + K1) (s.centroid (s.highest (-1) : ℤ)) (-K1)
          (s.vertex_list.getD (s.highest (-1)) [])) < s.f_list.getD i 0)).card ≤ 1 →
      ¬ f (vlincomb (1 - K3) (s.centroid (s.highest (-1) : ℤ)) K3
          (s.vertex_list.getD (s.highest (-1)) []))
        < s.f_list.getD (s.highest (-1)) 0 →
      s.take_a_step f K1 K2 K3
        = ({ s with nfe := s.nfe + 3 }).contract_about_one_point f
            (s.lowest (-1))) := by
  have hcount := card_filter_range_eq_countP (s.N + 1) (fun i =>
    f (vlincomb (1 + K1) (s.centroid (s.highest (-1) : ℤ)) (-K1)
      (s.vertex_list.getD (s.highest (-1)) [])) < s.f_list.getD i 0)
  unfold NMSimplex.take_a_step NMSimplex.take_a_stepT
  dsimp only
  rw [if_neg hge]
  refine ⟨?_, ?_, ?_⟩
  · intro hc
    rw [hcount] at hc
    rw [if_neg (by omega)]
  · intro hc hcon
    rw [hcount] at hc
    rw [if_pos hc, if_pos hcon]
  · intro hc hcon
    rw [hcount] at hc
    rw [if_pos hc, if_neg hcon]
    rfl

/-- C1 amended witness: on `cexS` with `cexF`, only one vertex is worse
than the reflection and the contraction value 5 improves on the worst
value 10, so the worst slot is replaced by the contraction point. -/
theorem C1_amended_witness :
    cexS.take_a_step cexF 1 2 (1/2)
      = ({ cexS with nfe := cexS.nfe + 3 }).replace_vertex (cexS.highest (-1))
          (vlincomb (1 - (1/2)) (cexS.centroid (cexS.highest (-1) : ℤ)) (1/2)
            (cexS.vertex_list.getD (cexS.highest (-1)) []))
          (cexF (vlincomb (1 - (1/2)) (cexS.centroid (cexS.highest (-1) : ℤ)) (1/2)
            (cexS.vertex_list.getD (cexS.highest (-1)) []))) :=
  (C1_amended cexF 1 2 (1/2) cexS (by with_unfolding_all decide)).2.1
    (by with_unfolding_all decide) (by with_unfolding_all decide)

/-!
Claim C9 — the best cached value never increases.
-/

/-- When `N ≥ 1` there is always a minimising slot other than the one
`highest` returns (if `lowest = highest` all values are equal). -/
lemma exists_min_keeper (fl : List ℚ) (N : ℕ) (hN : 1 ≤ N) :
    ∃ j, j < N + 1 ∧ j ≠ highestIdx fl N (-1) ∧
      ∀ i, i < N + 1 → fl.getD j 0 ≤ fl.getD i 0 := by
  by_cases hlh : lowestIdx fl N (-1) = highestIdx fl N (-1)
  · have hall : ∀ i, i < N + 1 → fl.getD i 0 = fl.getD (lowestIdx fl N (-1)) 0 := by
      intro i hi
      have h1 := lowestIdx_le fl N i hi
      have h2 := highestIdx_ge fl N i hi
      rw [← hlh] at h2
      exact le_antisymm h2 h1
    refine ⟨if highestIdx fl N (-1) = 0 then 1 else 0, ?_, ?_, ?_⟩
    · split_ifs <;> omega
    · split_ifs with h0
      · omega
      · exact fun hc => h0 hc.symm
    · intro i hi
      have hj : (if highestIdx fl N (-1) = 0 then 1 else 0) < N + 1 := by
        split_ifs <;> omega
      rw [hall _ hj]
      have := hall i hi
      rw [this]
  · exact ⟨lowestIdx fl N (-1), lowestIdx_lt fl N, hlh, lowestIdx_le fl N⟩

/-- Replacing the worst slot by anything keeps some slot at (or below)
the old minimum. -/
lemma min_after_set (fl : List ℚ) (N : ℕ) (hN : 1 ≤ N) (v : ℚ) :
    ∃ j, j < N + 1 ∧ ∀ i, i < N + 1 →
      (fl.set (highestIdx fl N (-1)) v).getD j 0 ≤ fl.getD i 0 := by
  obtain ⟨j, hj1, hjne, hjmin⟩ := exists_min_keeper fl N hN
  refine ⟨j, hj1, fun i hi => ?_⟩
  rw [getD_set_ne fl v 0 (fun hc => hjne hc.symm)]
  exact hjmin i hi

/-- The contraction loop leaves the slot it contracts about untouched
(both the vertex and its cached value). -/
lemma contractAuxT_keeps (f : List ℚ → ℚ) (i_con : ℕ) (p_con : List ℚ)
    (L : List ℕ) : ∀ s : NMSimplex,
    (contractAuxT f i_con p_con L s).1.f_list.getD i_con 0
      = s.f_list.getD i_con 0 ∧
    (contractAuxT f i_con p_con L s).1.vertex_list.getD i_con []
      = s.vertex_list.getD i_con [] := by
  induction L with
  | nil => intro s; exact ⟨rfl, rfl⟩
  | cons i rest ih =>
    intro s
    unfold contractAuxT
    dsimp only
    split_ifs with h1
    · exact ih s
    · obtain ⟨ha, hb⟩ := ih { s with
        f_list := s.f_list.set i (f (vlincomb (1/2) (s.vertex_list.getD i []) (1/2) p_con)),
        nfe := s.nfe + 1,
        vertex_list := s.vertex_list.set i
          (vlincomb (1/2) (s.vertex_list.getD i []) (1/2) p_con) }
      refine ⟨?_, ?_⟩
      · rw [ha]
        exact getD_set_ne _ _ _ h1
      · rw [hb]
        exact getD_set_ne _ _ _ h1

/-- `contract_about_one_point` leaves the slot it contracts about
untouched. -/
lemma contract_about_one_pointT_keeps (f : List ℚ → ℚ) (s : NMSimplex)
    (i_con : ℕ) :
    (s.contract_about_one_pointT f i_con).1.f_list.getD i_con 0
      = s.f_list.getD i_con 0 ∧
    (s.contract_about_one_pointT f i_con).1.vertex_list.getD i_con []
      = s.vertex_list.getD i_con [] :=
  contractAuxT_keeps f i_con (s.vertex_list.getD i_con [])
    (List.range (s.N + 1)) s

/-- The contraction loop does not change `N`. -/
lemma contractAuxT_N (f : List ℚ → ℚ) (i_con : ℕ) (p_con : List ℚ)
    (L : List ℕ) : ∀ s : NMSimplex,
    (contractAuxT f i_con p_con L s).1.N = s.N := by
  induction L with
  | nil => intro s; rfl
  | cons i rest ih =>
    intro s
    unfold contractAuxT
    dsimp only
    split_ifs with h1
    · exact ih s
    · exact ih _

/-- `take_a_step` does not change `N`. -/
lemma take_a_stepT_N (f : List ℚ → ℚ) (K1 K2 K3 : ℚ) (s : NMSimplex) :
    (s.take_a_stepT f K1 K2 K3).1.N = s.N := by
  unfold NMSimplex.take_a_stepT
  dsimp only
  split_ifs with h1 h2 h3 h4
  · rfl
  · rfl
  · rfl
  · exact contractAuxT_N f _ _ _ _
  · rfl

/-- `take_a_step` never raises the minimum cached value: some slot of
the new state is at or below every old cached value. -/
lemma take_a_step_min (f : List ℚ → ℚ) (K1 K2 K3 : ℚ) (s : NMSimplex)
    (hN : 1 ≤ s.N) :
    ∃ j, j < s.N + 1 ∧ ∀ i, i < s.N + 1 →
      (s.take_a_step f K1 K2 K3).f_list.getD j 0 ≤ s.f_list.getD i 0 := by
  unfold NMSimplex.take_a_step NMSimplex.take_a_stepT
  dsimp only
  split_ifs with h1 h2 h3 h4
  · exact min_after_set s.f_list s.N hN _
  · exact min_after_set s.f_list s.N hN _
  · exact min_after_set s.f_list s.N hN _
  · refine ⟨s.lowest (-1), lowestIdx_lt _ _, fun i hi => ?_⟩
    rw [(contract_about_one_pointT_keeps f _ (s.lowest (-1))).1]
    exact lowestIdx_le s.f_list s.N i hi
  · exact min_after_set s.f_list s.N hN _

/-- `rescale` keeps the old best value in slot 0. -/
lemma rescale_min (f : List ℚ → ℚ) (s : NMSimplex) (rat : ℚ) :
    ∃ j, j < s.N + 1 ∧ ∀ i, i < s.N + 1 →
      (s.rescale f rat).f_list.getD j 0 ≤ s.f_list.getD i 0 := by
  refine ⟨0, by omega, fun i hi => ?_⟩
  show (s.f_list.getD (s.lowest (-1)) 0 :: _).getD 0 0 ≤ s.f_list.getD i 0
  rw [List.getD_cons_zero]
  exact lowestIdx_le s.f_list s.N i hi

/-- Chaining two `min never increases` steps over the same dimension. -/
lemma min_chain {N : ℕ} {f0 f1 f2 : List ℚ}
    (h1 : ∃ j, j < N + 1 ∧ ∀ i, i < N + 1 → f1.getD j 0 ≤ f0.getD i 0)
    (h2 : ∃ j, j < N + 1 ∧ ∀ i, i < N + 1 → f2.getD j 0 ≤ f1.getD i 0) :
    ∃ j, j < N + 1 ∧ ∀ i, i < N + 1 → f2.getD j 0 ≤ f0.getD i 0 := by
  obtain ⟨j1, hj1, hm1⟩ := h1
  obtain ⟨j2, hj2, hm2⟩ := h2
  exact ⟨j2, hj2, fun i hi => le_trans (hm2 j1 hj1) (hm1 i hi)⟩

/-- The inner stepping loop preserves `N` and never raises the
minimum. -/
lemma stepsT_min (f : List ℚ → ℚ) (K1 K2 K3 : ℚ) (n : ℕ) :
    ∀ s : NMSimplex, 1 ≤ s.N →
    (stepsT f K1 K2 K3 n s).1.N = s.N ∧
    ∃ j, j < s.N + 1 ∧ ∀ i, i < s.N + 1 →
      (stepsT f K1 K2 K3 n s).1.f_list.getD j 0 ≤ s.f_list.getD i 0 := by
  induction n with
  | zero =>
    intro s hN
    exact ⟨rfl, lowestIdx s.f_list s.N (-1), lowestIdx_lt s.f_list s.N,
      lowestIdx_le s.f_list s.N⟩
  | succ n ih =>
    intro s hN
    unfold stepsT
    dsimp only
    have hstep := take_a_step_min f K1 K2 K3 s hN
    have hstepN := take_a_stepT_N f K1 K2 K3 s
    have hN' : 1 ≤ (s.take_a_stepT f K1 K2 K3).1.N := by omega
    obtain ⟨ihN, ihmin⟩ := ih (s.take_a_stepT f K1 K2 K3).1 hN'
    refine ⟨by rw [ihN, hstepN], ?_⟩
    rw [hstepN] at ihmin
    exact min_chain hstep ihmin

/-- The outer `while` loop preserves `N` and never raises the minimum
cached value. -/
lemma minimizeLoopT_min (f : List ℚ → ℚ) (tol : ℚ) (maxfe n_check : ℕ)
    (delta K1 K2 K3 : ℚ) : ∀ (fuel : ℕ) (s : NMSimplex)
    (best b : Option (List ℚ × ℚ)) (conv c : Bool)
    (acc tr : List (List ℚ)) (sFin : NMSimplex),
    minimizeLoopT f tol maxfe n_check delta K1 K2 K3 fuel s best conv acc
      = some (b, c, sFin, tr) → 1 ≤ s.N →
    sFin.N = s.N ∧
    ∃ j, j < s.N + 1 ∧ ∀ i, i < s.N + 1 →
      sFin.f_list.getD j 0 ≤ s.f_list.getD i 0 := by
  intro fuel
  induction fuel with
  | zero =>
    intro s best b conv c acc tr sFin h
    exact absurd h (by simp [minimizeLoopT])
  | succ fuel ih =>
    intro s best b conv c acc tr sFin h hN
    unfold minimizeLoopT at h
    by_cases hcond : conv = false ∧ s.nfe < maxfe
    · rw [if_pos hcond] at h
      dsimp only at h
      obtain ⟨hsN, hsmin⟩ := stepsT_min f K1 K2 K3 n_check s hN
      set s1 := (stepsT f K1 K2 K3 n_check s).1 with hs1
      have hN1 : 1 ≤ s1.N := by omega
      split_ifs at h with hstd hconv
      · have hfl : (s1.test_for_minimumT f (s1.lowest (-1)) delta).2.1.f_list
            = s1.f_list :=
          (tfmAuxT_frame f (s1.lowest (-1)) delta
            (s1.f_list.getD (s1.lowest (-1)) 0) (List.range s1.N) s1).2.1
        have hfN2 : (s1.test_for_minimumT f (s1.lowest (-1)) delta).2.1.N = s1.N :=
          (tfmAuxT_frame f (s1.lowest (-1)) delta
            (s1.f_list.getD (s1.lowest (-1)) 0) (List.range s1.N) s1).2.2.2.1
        have hN2 : 1 ≤ (s1.test_for_minimumT f (s1.lowest (-1)) delta).2.1.N := by
          omega
        obtain ⟨hfN, hfmin⟩ := ih _ _ _ _ _ _ _ _ h hN2
        rw [hfN2, hsN] at hfN
        rw [hfN2, hsN, hfl] at hfmin
        exact ⟨hfN, min_chain hsmin hfmin⟩
      · have hfl : (s1.test_for_minimumT f (s1.lowest (-1)) delta).2.1.f_list
            = s1.f_list :=
          (tfmAuxT_frame f (s1.lowest (-1)) delta
            (s1.f_list.getD (s1.lowest (-1)) 0) (List.range s1.N) s1).2.1
        have hstN : (s1.test_for_minimumT f (s1.lowest (-1)) delta).2.1.N = s1.N :=
          (tfmAuxT_frame f (s1.lowest (-1)) delta
            (s1.f_list.getD (s1.lowest (-1)) 0) (List.range s1.N) s1).2.2.2.1
        have hrN : (((s1.test_for_minimumT f (s1.lowest (-1)) delta).2.1).rescaleT
            f delta).1.N = (s1.test_for_minimumT f (s1.lowest (-1)) delta).2.1.N :=
          rfl
        have hrmin := rescale_min f
          (s1.test_for_minimumT f (s1.lowest (-1)) delta).2.1 delta
        have hNr : 1 ≤ (((s1.test_for_minimumT f (s1.lowest (-1)) delta).2.1).rescaleT
            f delta).1.N := by omega
        obtain ⟨hfN, hfmin⟩ := ih _ _ _ _ _ _ _ _ h hNr
        rw [hrN, hstN, hsN] at hfN
        rw [hrN, hstN, hsN] at hfmin
        rw [hstN, hsN, hfl] at hrmin
        exact ⟨hfN, min_chain hsmin (min_chain hrmin hfmin)⟩
      · obtain ⟨hfN, hfmin⟩ := ih _ _ _ _ _ _ _ _ h hN1
        rw [hsN] at hfN hfmin
        exact ⟨hfN, min_chain hsmin hfmin⟩
    · rw [if_neg hcond] at h
      simp only [Option.some.injEq, Prod.mk.injEq] at h
      obtain ⟨-, -, hs, -⟩ := h
      rw [← hs]
      exact ⟨rfl, lowestIdx s.f_list s.N (-1), lowestIdx_lt s.f_list s.N,
        lowestIdx_le s.f_list s.N⟩

/-- C9: for every simplex with `N ≥ 1`, the minimum cached value never
increases — `take_a_step` leaves some slot at or below every old value,
`contract_about_one_point` keeps the slot it contracts about untouched,
`rescale` retains the best vertex with its cached value, and the whole
`minimize` loop therefore ends with its best cached value at or below
every starting cached value. -/
theorem C9_min_monotone (f : List ℚ → ℚ) (K1 K2 K3 rat tol delta : ℚ)
    (maxfe n_check : ℕ) (s : NMSimplex) (hN : 1 ≤ s.N) :
    (∃ j, j < s.N + 1 ∧ ∀ i, i < s.N + 1 →
      (s.take_a_step f K1 K2 K3).f_list.getD j 0 ≤ s.f_list.getD i 0) ∧
    (∀ i_con : ℕ,
      (s.contract_about_one_point f i_con).f_list.getD i_con 0
        = s.f_list.getD i_con 0 ∧
      (s.contract_about_one_point f i_con).vertex_list.getD i_con []
        = s.vertex_list.getD i_con []) ∧
    (∃ j, j < s.N + 1 ∧ ∀ i, i < s.N + 1 →
      (s.rescale f rat).f_list.getD j 0 ≤ s.f_list.getD i 0) ∧
    (∀ (fuel : ℕ) (best b : Option (List ℚ × ℚ)) (conv c : Bool)
      (acc tr : List (List ℚ)) (sFin : NMSimplex),
      minimizeLoopT f tol maxfe n_check delta K1 K2 K3 fuel s best conv acc
        = some (b, c, sFin, tr) →
      ∃ j, j < s.N + 1 ∧ ∀ i, i < s.N + 1 →
        sFin.f_list.getD j 0 ≤ s.f_list.getD i 0) :=
  ⟨take_a_step_min f K1 K2 K3 s hN,
   fun i_con => contract_about_one_pointT_keeps f s i_con,
   rescale_min f s rat,
   fun fuel best b conv c acc tr sFin h =>
     (minimizeLoopT_min f tol maxfe n_check delta K1 K2 K3 fuel s best b
       conv c acc tr sFin h hN).2⟩

/-- C9 witness: contracting a concrete simplex about slot 0 keeps that
slot's cached value. -/
theorem C9_witness :
    ((⟨1, [[0], [2]], [4, 6], [1], 2, 0⟩ : NMSimplex).contract_about_one_point
        (fun _ => 9) 0).f_list.getD 0 0
      = (⟨1, [[0], [2]], [4, 6], [1], 2, 0⟩ : NMSimplex).f_list.getD 0 0 :=
  ((C9_min_monotone (fun _ => 9) 1 2 (1/2) (1/2) 1 (1/1000) 300 20
    ⟨1, [[0], [2]], [4, 6], [1], 2, 0⟩ (by decide)).2.1 0).1

/-!
Claim C8 — `minimize` never mutates the caller-owned seed and `dx`
arrays.  In the store-level model, every array a run ever writes to in
place (only the simplex's own `dx`, via `rescale`) or rebinds is
allocated after entry, so the heap below the entry allocation mark —
in particular the caller's two arrays — is left exactly as it was.
-/

/-- Setting a slot at or beyond `n` leaves the first `n` entries alone. -/
lemma take_set_of_le {α : Type} (l : List α) (v : α) {i n : ℕ} (h : n ≤ i) :
    (l.set i v).take n = l.take n := by
  apply List.ext_getElem?
  intro m
  rw [List.getElem?_take, List.getElem?_take]
  by_cases hm : m < n
  · rw [if_pos hm, if_pos hm, List.getElem?_set_ne (by omega)]
  · rw [if_neg hm, if_neg hm]

/-- Reads below the preserved prefix agree. -/
lemma hread_eq_of_take_eq {h h2 : Heap} {n i : ℕ}
    (ht : h2.take n = h.take n) (hi : i < n) : hread h2 i = hread h i := by
  unfold hread
  rw [List.getD_eq_getElem?_getD, List.getD_eq_getElem?_getD]
  have h1 : (h2.take n)[i]? = h2[i]? := by
    rw [List.getElem?_take, if_pos hi]
  have h3 : (h.take n)[i]? = h[i]? := by
    rw [List.getElem?_take, if_pos hi]
  rw [← h1, ← h3, ht]

/-- Allocation preserves the existing heap prefix. -/
lemma halloc_frame (n0 : ℕ) (h : Heap) (v : List ℚ) (hn : n0 ≤ h.length) :
    (halloc h v).2.take n0 = h.take n0 ∧ n0 ≤ (halloc h v).2.length ∧
    n0 ≤ (halloc h v).1 := by
  refine ⟨List.take_append_of_le_length hn, ?_, hn⟩
  show n0 ≤ (h ++ [v]).length
  rw [List.length_append]
  omega

/-- Allocating a batch preserves the existing heap prefix. -/
lemma hallocList_frame (n0 : ℕ) (vs : List (List ℚ)) : ∀ h : Heap,
    n0 ≤ h.length →
    (hallocList vs h).1.take n0 = h.take n0 ∧
    n0 ≤ (hallocList vs h).1.length := by
  induction vs with
  | nil => intro h hn; exact ⟨rfl, hn⟩
  | cons v rest ih =>
    intro h hn
    unfold hallocList
    dsimp only
    obtain ⟨h1, h2, -⟩ := halloc_frame n0 h v hn
    obtain ⟨h3, h4⟩ := ih (halloc h v).2 h2
    exact ⟨h3.trans h1, h4⟩

/-- An in-place write at an id at or beyond the mark preserves the
prefix and the heap length. -/
lemma hwrite_frame (n0 : ℕ) (h : Heap) (i : ℕ) (v : List ℚ) (hi : n0 ≤ i) :
    (hwrite h i v).take n0 = h.take n0 ∧
    (hwrite h i v).length = h.length :=
  ⟨take_set_of_le h v hi, List.length_set h i v⟩

/-- `replace_vertex` only allocates; the prefix survives and the
simplex's `dx` id is unchanged. -/
lemma hreplace_vertex_frame (n0 : ℕ) (s : HSimplex) (h : Heap) (i : ℕ)
    (x : List ℚ) (fv : ℚ) (hn : n0 ≤ h.length) :
    (s.hreplace_vertex h i x fv).2.take n0 = h.take n0 ∧
    n0 ≤ (s.hreplace_vertex h i x fv).2.length ∧
    (s.hreplace_vertex h i x fv).1.dxid = s.dxid := by
  obtain ⟨h1, h2, -⟩ := halloc_frame n0 h x hn
  exact ⟨h1, h2, rfl⟩

/-- The contraction loop only allocates. -/
lemma hContractAux_frame (n0 : ℕ) (f : List ℚ → ℚ) (i_con : ℕ)
    (p_con : List ℚ) (L : List ℕ) : ∀ (s : HSimplex) (h : Heap),
    n0 ≤ h.length →
    (hContractAux f i_con p_con L s h).2.take n0 = h.take n0 ∧
    n0 ≤ (hContractAux f i_con p_con L s h).2.length ∧
    (hContractAux f i_con p_con L s h).1.dxid = s.dxid := by
  induction L with
  | nil => intro s h hn; exact ⟨rfl, hn, rfl⟩
  | cons i rest ih =>
    intro s h hn
    unfold hContractAux
    dsimp only
    split_ifs with h1
    · exact ih s h hn
    · obtain ⟨ha, hb, -⟩ := halloc_frame n0 h
        (vlincomb (1/2) (hread h (s.vids.getD i 0)) (1/2) p_con) hn
      obtain ⟨hc, hd, he⟩ := ih _ _ hb
      exact ⟨hc.trans ha, hd, he⟩

/-- `take_a_step` only allocates. -/
lemma htake_a_step_frame (n0 : ℕ) (f : List ℚ → ℚ) (K1 K2 K3 : ℚ)
    (s : HSimplex) (h : Heap) (hn : n0 ≤ h.length) :
    (s.htake_a_step f h K1 K2 K3).2.take n0 = h.take n0 ∧
    n0 ≤ (s.htake_a_step f h K1 K2 K3).2.length ∧
    (s.htake_a_step f h K1 K2 K3).1.dxid = s.dxid := by
  unfold HSimplex.htake_a_step
  dsimp only
  split_ifs with h1 h2 h3 h4
  · exact hreplace_vertex_frame n0 _ h _ _ _ hn
  · exact hreplace_vertex_frame n0 _ h _ _ _ hn
  · exact hreplace_vertex_frame n0 _ h _ _ _ hn
  · exact hContractAux_frame n0 f _ _ _ _ h hn
  · exact hreplace_vertex_frame n0 _ h _ _ _ hn

/-- `rescale` writes in place only at the simplex's own `dx` id and
otherwise allocates. -/
lemma hrescale_frame (n0 : ℕ) (f : List ℚ → ℚ) (s : HSimplex) (h : Heap)
    (rat : ℚ) (hn : n0 ≤ h.length) (hdx : n0 ≤ s.dxid) :
    (s.hrescale f h rat).2.take n0 = h.take n0 ∧
    n0 ≤ (s.hrescale f h rat).2.length ∧
    (s.hrescale f h rat).1.dxid = s.dxid := by
  unfold HSimplex.hrescale
  dsimp only
  obtain ⟨hw1, hw2⟩ := hwrite_frame n0 h s.dxid
    ((hread h s.dxid).map (fun a => a * rat)) hdx
  have hlen : n0 ≤ (hwrite h s.dxid
      ((hread h s.dxid).map (fun a => a * rat))).length := by
    rw [hw2]; exact hn
  refine ⟨?_, ?_, rfl⟩
  · exact (hallocList_frame n0 _ _ hlen).1.trans hw1
  · exact (hallocList_frame n0 _ _ hlen).2

/-- The inner stepping loop only allocates. -/
lemma hSteps_frame (n0 : ℕ) (f : List ℚ → ℚ) (K1 K2 K3 : ℚ) (n : ℕ) :
    ∀ (s : HSimplex) (h : Heap), n0 ≤ h.length →
    (hSteps f K1 K2 K3 n s h).2.take n0 = h.take n0 ∧
    n0 ≤ (hSteps f K1 K2 K3 n s h).2.length ∧
    (hSteps f K1 K2 K3 n s h).1.dxid = s.dxid := by
  induction n with
  | zero => intro s h hn; exact ⟨rfl, hn, rfl⟩
  | succ n ih =>
    intro s h hn
    unfold hSteps
    dsimp only
    obtain ⟨h1, h2, h3⟩ := htake_a_step_frame n0 f K1 K2 K3 s h hn
    obtain ⟨h4, h5, h6⟩ := ih _ _ h2
    exact ⟨h4.trans h1, h5, h6.trans h3⟩

/-- The probe loop of the store-level `test_for_minimum` keeps the
`dx` id. -/
lemma hTfmAux_dxid (f : List ℚ → ℚ) (vm dxv : List ℚ) (delta f_min : ℚ)
    (L : List ℕ) : ∀ s : HSimplex,
    (hTfmAux f vm dxv delta f_min L s).2.dxid = s.dxid := by
  induction L with
  | nil => intro s; rfl
  | cons j rest ih =>
    intro s
    unfold hTfmAux
    dsimp only
    split_ifs with h1 h2
    · rfl
    · rfl
    · exact ih _

/-- `test_for_minimum` does not touch the heap or the ids at all. -/
lemma htest_for_minimum_dxid (f : List ℚ → ℚ) (s : HSimplex) (h : Heap)
    (i_min : ℕ) (delta : ℚ) :
    (s.htest_for_minimum f h i_min delta).2.dxid = s.dxid :=
  hTfmAux_dxid f (s.hget_vertex h i_min) (hread h s.dxid) delta
    (s.fl.getD i_min 0) (List.range s.N) s

/-- The `minimize` while loop preserves the heap prefix below the
entry mark. -/
lemma hMinimizeLoop_frame (n0 : ℕ) (f : List ℚ → ℚ) (tol : ℚ)
    (maxfe n_check : ℕ) (delta K1 K2 K3 : ℚ) : ∀ (fuel : ℕ)
    (s : HSimplex) (h : Heap) (best : Option (List ℚ × ℚ)) (conv : Bool),
    n0 ≤ h.length → n0 ≤ s.dxid →
    (hMinimizeLoop f tol maxfe n_check delta K1 K2 K3 fuel s h best conv).2.take n0
      = h.take n0 := by
  intro fuel
  induction fuel with
  | zero => intro s h best conv hn hdx; rfl
  | succ fuel ih =>
    intro s h best conv hn hdx
    unfold hMinimizeLoop
    by_cases hcond : conv = false ∧ s.nfe < maxfe
    · rw [if_pos hcond]
      dsimp only
      obtain ⟨h1, h2, h3⟩ := hSteps_frame n0 f K1 K2 K3 n_check s h hn
      set s1 := (hSteps f K1 K2 K3 n_check s h).1 with hs1
      set hh1 := (hSteps f K1 K2 K3 n_check s h).2 with hh1d
      set ib := lowestIdx s1.fl s1.N (-1) with hib
      set st := (s1.htest_for_minimum f hh1 ib delta).2 with hstdef
      have hdxt : st.dxid = s.dxid := by
        rw [hstdef, htest_for_minimum_dxid]
        exact h3
      split_ifs with hstd hconv
      · exact (ih st hh1 _ _ h2 (by rw [hdxt]; exact hdx)).trans h1
      · obtain ⟨h5, h6, h7⟩ := hrescale_frame n0 f st hh1 delta h2
          (by rw [hdxt]; exact hdx)
        exact ((ih _ _ _ _ h6 (by rw [h7, hdxt]; exact hdx)).trans h5).trans h1
      · exact (ih s1 hh1 _ _ h2 (by rw [h3]; exact hdx)).trans h1
    · rw [if_neg hcond]

/-- C8: a full `minimize` run (normal return, error return, or fuel
exhaustion) leaves the caller-owned seed and `dx` arrays exactly as
they were on entry, even though `rescale` scales the simplex's internal
step vector in place. -/
theorem C8_minimize_frame (f : List ℚ → ℚ) (h : Heap) (xid dxid : ℕ)
    (tol : ℚ) (maxfe n_check : ℕ) (delta K1 K2 K3 : ℚ)
    (hx : xid < h.length) (hd : dxid < h.length) :
    hread (hMinimize f h xid dxid tol maxfe n_check delta K1 K2 K3).2 xid
      = hread h xid ∧
    hread (hMinimize f h xid dxid tol maxfe n_check delta K1 K2 K3).2 dxid
      = hread h dxid := by
  suffices htake : (hMinimize f h xid dxid tol maxfe n_check delta K1 K2 K3).2.take h.length
      = h.take h.length by
    exact ⟨hread_eq_of_take_eq htake hx, hread_eq_of_take_eq htake hd⟩
  unfold hMinimize
  rcases hI : hInit f h xid dxid with _ | ⟨s0, h1⟩
  · rfl
  · have hframe : h1.take h.length = h.take h.length ∧
        h.length ≤ h1.length ∧ h.length ≤ s0.dxid := by
      unfold hInit at hI
      dsimp only at hI
      by_cases hg : (hread h dxid).length < (hread h xid).length
      · rw [if_pos hg] at hI
        exact absurd hI (by simp)
      · rw [if_neg hg] at hI
        simp only [Option.some.injEq, Prod.mk.injEq] at hI
        obtain ⟨hs, hh⟩ := hI
        obtain ⟨ha, hb⟩ := hallocList_frame h.length _
          (halloc h (hread h dxid)).2
          (by show h.length ≤ (h ++ [hread h dxid]).length
              rw [List.length_append]; omega)
        have hpre : (halloc h (hread h dxid)).2.take h.length
            = h.take h.length :=
          List.take_append_of_le_length le_rfl
        refine ⟨?_, ?_, ?_⟩
        · rw [← hh]
          exact ha.trans hpre
        · rw [← hh]
          exact hb
        · rw [← hs]
          exact le_rfl
    obtain ⟨hf1, hf2, hf3⟩ := hframe
    have hloop := hMinimizeLoop_frame h.length f tol maxfe n_check delta
      K1 K2 K3 (maxfe + 1) s0 h1 none false hf2 hf3
    dsimp only
    rcases hL : hMinimizeLoop f tol maxfe n_check delta K1 K2 K3
        (maxfe + 1) s0 h1 none false with ⟨res, h2⟩
    rw [hL] at hloop
    have h2take : h2.take h.length = h.take h.length := hloop.trans hf1
    rcases res with _ | ⟨best, conv, sFin⟩
    · exact h2take
    · rcases best with _ | bf
      · exact h2take
      · exact h2take

/-- C8 witness: a concrete run on a heap holding the caller's seed
(id 0) and `dx` (id 1) returns with both arrays intact. -/
theorem C8_witness :
    hread (hMinimize (fun _ => (5:ℚ)) [[0], [1]] 0 1 1 5 1 (1/1000)
      1 2 (1/2)).2 0 = hread [[0], [1]] 0 ∧
    hread (hMinimize (fun _ => (5:ℚ)) [[0], [1]] 0 1 1 5 1 (1/1000)
      1 2 (1/2)).2 1 = hread [[0], [1]] 1 :=
  C8_minimize_frame (fun _ => (5:ℚ)) [[0], [1]] 0 1 1 5 1 (1/1000) 1 2 (1/2)
    (by decide) (by decide)

end Nelmin
